import Mathlib

/-! Verification of the résumé-parsing and job-ranking engine.

The Python source (v2.py) is shallowly embedded here.  Python strings are
modelled as `List Char`; the fragment of Python regular expressions used by
the skill dictionary and the extractors is given an executable backtracking
matcher (`reMatches`) whose priority order mirrors Python's engine: leftmost
position first, greedy repetition, left alternative first.  `re.IGNORECASE`
is modelled by lower-casing the searched text and writing the patterns in
lower case, which coincides with Python's behaviour on the ASCII texts the
program manipulates. -/

namespace JobAgent

/-- Word characters of the regex engine (the class backslash-w): ASCII
letters, digits and underscore, as in Python for ASCII text. -/
def wordChar (c : Char) : Bool := c.isAlphanum || c == '_'

/-- Word-character test lifted to an optional character (none = string edge). -/
def wordCharO : Option Char → Bool
  | none => false
  | some c => wordChar c

/-- Whitespace characters of the engine's whitespace class (backslash-s) and
of Python's str.strip, restricted to ASCII. -/
def spaceChar (c : Char) : Bool :=
  c == ' ' || c == '\t' || c == '\n' || c == '\r' || c == '\x0b' || c == '\x0c'

/-- Character classes appearing in the source's regular expressions. -/
inductive CharCls where
  | digit : CharCls
  | space : CharCls
  | anyNoNl : CharCls
  | oneOf : List Char → CharCls
  deriving DecidableEq, Repr

/-- Membership of a character in a class. -/
def clsMatch : CharCls → Char → Bool
  | .digit, c => c.isDigit
  | .space, c => spaceChar c
  | .anyNoNl, c => !(c == '\n')
  | .oneOf l, c => l.contains c

/-- Syntax of the regular-expression fragment used by the source: literal
characters, character classes, greedy star and plus of a class, greedy
option, sequencing, alternation (left alternative preferred), word boundary,
a word boundary immediately followed by a negative lookahead of a literal
(the shape of the java rule), positive lookahead, and the digit-capturing
group. -/
inductive RE where
  | eps : RE
  | lit : Char → RE
  | cls : CharCls → RE
  | star : CharCls → RE
  | plus : CharCls → RE
  | opt : RE → RE
  | seq : RE → RE → RE
  | alt : RE → RE → RE
  | wb : RE
  | wbNla : List Char → RE
  | pla : RE → RE
  | capDigits : RE
  deriving DecidableEq, Repr

/-- Matcher state: the character just before the current position (needed by
word boundaries), the remaining input, and the digits captured so far. -/
structure MState where
  prev : Option Char
  rest : List Char
  cap : Option (List Char)
  deriving DecidableEq, Repr

/-- Is the current position a word boundary? -/
def atBoundary (p : Option Char) (s : List Char) : Bool :=
  wordCharO p != (match s with | [] => false | c :: _ => wordChar c)

/-- Does the first list occur literally at the head of the second? -/
def leadsWith : List Char → List Char → Bool
  | [], _ => true
  | _ :: _, [] => false
  | a :: u, b :: v => a == b && leadsWith u v

/-- Greedy splits of a leading run of class characters (zero or more):
longest run consumed first, each split recording the character preceding the
new position. -/
def starSplits (k : CharCls) (p : Option Char) : List Char → List (Option Char × List Char)
  | [] => [(p, [])]
  | c :: t => if clsMatch k c then starSplits k (some c) t ++ [(p, c :: t)] else [(p, c :: t)]

/-- Greedy splits of a leading run of one or more class characters. -/
def plusSplits (k : CharCls) : Option Char → List Char → List (Option Char × List Char)
  | _, [] => []
  | _, c :: t => if clsMatch k c then starSplits k (some c) t else []

/-- Greedy splits for the digit-capturing group: each split carries the
digits consumed so far, longest capture first. -/
def capSplits (acc : List Char) (p : Option Char) :
    List Char → List (List Char × Option Char × List Char)
  | [] => [(acc, p, [])]
  | c :: t =>
    if c.isDigit then capSplits (acc ++ [c]) (some c) t ++ [(acc, p, c :: t)]
    else [(acc, p, c :: t)]

/-- All ways the expression can match a prefix of the state's remaining
input, in the backtracking priority order of Python's engine. -/
def reMatches : RE → MState → List MState
  | .eps, st => [st]
  | .lit c, st =>
    match st.rest with
    | [] => []
    | d :: t => if d == c then [⟨some d, t, st.cap⟩] else []
  | .cls k, st =>
    match st.rest with
    | [] => []
    | d :: t => if clsMatch k d then [⟨some d, t, st.cap⟩] else []
  | .star k, st => (starSplits k st.prev st.rest).map (fun q => ⟨q.1, q.2, st.cap⟩)
  | .plus k, st => (plusSplits k st.prev st.rest).map (fun q => ⟨q.1, q.2, st.cap⟩)
  | .opt r, st => reMatches r st ++ [st]
  | .seq a b, st => (reMatches a st).flatMap (fun st2 => reMatches b st2)
  | .alt a b, st => reMatches a st ++ reMatches b st
  | .wb, st => if atBoundary st.prev st.rest then [st] else []
  | .wbNla l, st =>
    if atBoundary st.prev st.rest && !(leadsWith l st.rest) then [st] else []
  | .pla r, st => if (reMatches r st).isEmpty then [] else [st]
  | .capDigits, st =>
    match st.rest with
    | [] => []
    | d :: t =>
      if d.isDigit then (capSplits [d] (some d) t).map (fun q => ⟨q.2.1, q.2.2, some q.1⟩)
      else []

/-- Does the expression match starting at some position at or after the
current one?  This is the Boolean content of Python's re.search. -/
def searchAux (r : RE) (p : Option Char) : List Char → Bool
  | [] => !(reMatches r ⟨p, [], none⟩).isEmpty
  | c :: t => !(reMatches r ⟨p, c :: t, none⟩).isEmpty || searchAux r (some c) t

/-- Leftmost search returning the digits captured by the engine's first
match, as Python's re.search followed by group(1). -/
def searchCap (r : RE) (p : Option Char) : List Char → Option (List Char)
  | [] =>
    (match reMatches r ⟨p, [], none⟩ with
     | [] => none
     | st :: _ => st.cap)
  | c :: t =>
    (match reMatches r ⟨p, c :: t, none⟩ with
     | [] => searchCap r (some c) t
     | st :: _ => st.cap)

/-- Lower-casing of a text, modelling Python's str.lower on ASCII. -/
def lowerL (s : List Char) : List Char := s.map Char.toLower

/-- Sequence of literal characters. -/
def litsL (l : List Char) : RE := (l.map RE.lit).foldr RE.seq RE.eps

/-- Literal word from a string. -/
def lits (s : String) : RE := litsL s.data

/-- Right-nested sequencing of a list of expressions. -/
def rseq (l : List RE) : RE := l.foldr RE.seq RE.eps

/-- Whole word: word boundary, the literal characters, word boundary. -/
def wordL (l : List Char) : RE := RE.seq RE.wb (RE.seq (litsL l) RE.wb)

/-- Whole word from a string literal. -/
def word (s : String) : RE := wordL s.data

/-- Two words separated by one-or-more whitespace, bounded by word
boundaries, the shape of patterns such as machine-learning. -/
def words2 (a b : String) : RE :=
  RE.seq RE.wb (RE.seq (lits a) (RE.seq (RE.plus .space) (RE.seq (lits b) RE.wb)))

/-- Three words separated by one-or-more whitespace, bounded by word
boundaries. -/
def words3 (a b c : String) : RE :=
  RE.seq RE.wb (RE.seq (lits a)
    (RE.seq (RE.plus .space) (RE.seq (lits b)
      (RE.seq (RE.plus .space) (RE.seq (lits c) RE.wb)))))

/-- The python rule, pattern backslash-b python backslash-b. -/
def pythonRE : RE := word "python"

/-- The java rule: java as a whole word not followed by "script". -/
def javaRE : RE :=
  RE.seq RE.wb (RE.seq (lits "java")
    (RE.wbNla ('s' :: 'c' :: 'r' :: 'i' :: 'p' :: 't' :: [])))

/-- The javascript rule: javascript or js as whole words. -/
def javascriptRE : RE := RE.alt (word "javascript") (word "js")

/-- The c++ rule: the four characters c++ between word boundaries, or cpp. -/
def cppRE : RE := RE.alt (RE.seq RE.wb (RE.seq (lits "c++") RE.wb)) (word "cpp")

/-- The swift rule. -/
def swiftRE : RE := word "swift"

/-- The ios rule: ios, swift or xcode as whole words. -/
def iosRE : RE := RE.alt (word "ios") (RE.alt (word "swift") (word "xcode"))

/-- The react rule: react.js, reactjs or react as whole words. -/
def reactRE : RE :=
  RE.alt (RE.seq RE.wb (RE.seq (lits "react") (RE.seq (RE.opt (RE.lit '.')) (RE.seq (lits "js") RE.wb))))
    (word "react")

/-- Optional ".js" suffix words such as next.js, vue.js, node.js, three.js. -/
def dotJs (stem : String) : RE :=
  RE.seq RE.wb (RE.seq (lits stem) (RE.seq (RE.opt (RE.lit '.')) (RE.seq (lits "js") RE.wb)))

/-- The skill dictionary: each entry pairs the canonical skill name with the
embedding of the source's regular expression, in the source's order.  The
original pattern is quoted in the comment next to each entry. -/
def SKILLS : List (String × RE) := [
  ("python", pythonRE),                                     -- bpythonb
  ("java", javaRE),                                         -- bjavab(?!script)
  ("javascript", javascriptRE),                             -- bjavascriptb|bjsb
  ("typescript", RE.alt (word "typescript") (word "ts")),
  ("c++", cppRE),                                           -- bc++b|bcppb
  ("c#", RE.alt (RE.seq RE.wb (RE.seq (lits "c#") RE.wb)) (word "csharp")),
  ("ruby", word "ruby"),
  ("php", word "php"),
  ("swift", swiftRE),
  ("kotlin", word "kotlin"),
  ("golang", RE.alt (word "golang")                         -- bgolangb|bgo s+ langb
    (RE.seq RE.wb (RE.seq (lits "go") (RE.seq (RE.plus .space) (RE.seq (lits "lang") RE.wb))))),
  ("rust", word "rust"),
  ("scala", word "scala"),
  ("r-lang", RE.seq RE.wb (RE.seq (lits "r") (RE.seq RE.wb  -- bRb(?= s*(programming|language|script|studio))
    (RE.pla (RE.seq (RE.star .space)
      (RE.alt (lits "programming") (RE.alt (lits "language") (RE.alt (lits "script") (lits "studio"))))))))),
  ("matlab", word "matlab"),
  ("dart", word "dart"),
  ("react", reactRE),                                       -- breact.?jsb|breactb
  ("three.js", RE.alt (dotJs "three") (word "3js")),
  ("react-three-fiber", RE.alt                              -- breact.?three.?fiberb|br3fb
    (RE.seq RE.wb (RE.seq (lits "react") (RE.seq (RE.opt (RE.cls .anyNoNl))
      (RE.seq (lits "three") (RE.seq (RE.opt (RE.cls .anyNoNl)) (RE.seq (lits "fiber") RE.wb))))))
    (word "r3f")),
  ("nextjs", RE.alt (dotJs "next") (word "nextjs")),
  ("angular", word "angular"),
  ("vue", RE.alt (dotJs "vue") (RE.alt (word "vuejs") (word "vue"))),
  ("node", RE.alt (dotJs "node") (word "nodejs")),
  ("django", word "django"),
  ("flask", word "flask"),
  ("spring", RE.seq RE.wb (RE.seq (lits "spring")           -- bspring s*(boot)?b
    (RE.seq (RE.star .space) (RE.seq (RE.opt (lits "boot")) RE.wb)))),
  ("fastapi", word "fastapi"),
  ("flutter", word "flutter"),
  ("android", word "android"),
  ("ios", iosRE),                                           -- biosb|bswiftb|bxcodeb
  ("unity", RE.seq RE.wb (RE.seq (lits "unity")
    (RE.seq (RE.star .space) (RE.seq (RE.opt (lits "3d")) RE.wb)))),
  ("unreal", RE.seq RE.wb (RE.seq (lits "unreal")           -- bunreal( s*engine)?b
    (RE.seq (RE.opt (RE.seq (RE.star .space) (lits "engine"))) RE.wb))),
  ("blender", word "blender"),
  ("godot", word "godot"),
  ("gsap", word "gsap"),
  ("webgl", word "webgl"),
  ("pyqt", RE.seq RE.wb (RE.seq (lits "pyqt") (RE.seq (RE.star .digit) RE.wb))),
  ("machine learning", words2 "machine" "learning"),
  ("deep learning", words2 "deep" "learning"),
  ("nlp", RE.alt (word "nlp") (words3 "natural" "language" "processing")),
  ("computer vision", words2 "computer" "vision"),
  ("tensorflow", word "tensorflow"),
  ("pytorch", word "pytorch"),
  ("keras", word "keras"),
  ("scikit-learn", RE.alt                                   -- bscikit.?learnb|bsklearnb
    (RE.seq RE.wb (RE.seq (lits "scikit") (RE.seq (RE.opt (RE.cls .anyNoNl)) (RE.seq (lits "learn") RE.wb))))
    (word "sklearn")),
  ("pandas", word "pandas"),
  ("numpy", word "numpy"),
  ("data analysis", RE.seq RE.wb (RE.seq (lits "data")      -- bdata s+anal(ysis|ytics)b
    (RE.seq (RE.plus .space) (RE.seq (lits "anal") (RE.seq (RE.alt (lits "ysis") (lits "ytics")) RE.wb))))),
  ("data science", words2 "data" "science"),
  ("statistics", RE.alt (word "statistics") (word "statistical")),
  ("spark", RE.alt (words2 "apache" "spark") (RE.alt (word "pyspark") (word "spark"))),
  ("hadoop", word "hadoop"),
  ("aws", RE.alt (word "aws") (words3 "amazon" "web" "services")),
  ("azure", word "azure"),
  ("gcp", RE.alt (word "gcp") (words2 "google" "cloud")),
  ("docker", word "docker"),
  ("kubernetes", RE.alt (word "kubernetes") (word "k8s")),
  ("terraform", word "terraform"),
  ("ci/cd", RE.alt (RE.seq RE.wb (RE.seq (lits "ci/cd") RE.wb)) (words2 "continuous" "integration")),
  ("jenkins", word "jenkins"),
  ("github actions", words2 "github" "actions"),
  ("sql", word "sql"),
  ("postgresql", RE.alt (word "postgresql") (word "postgres")),
  ("mysql", word "mysql"),
  ("mongodb", RE.alt (word "mongodb") (word "mongo")),
  ("redis", word "redis"),
  ("elasticsearch", word "elasticsearch"),
  ("agile", word "agile"),
  ("scrum", word "scrum"),
  ("project management", words2 "project" "management"),
  ("leadership", word "leadership"),
  ("linux", RE.alt (word "linux") (RE.alt (word "ubuntu") (word "debian"))),
  ("devops", word "devops"),
  ("cybersecurity", RE.alt (word "cybersecurity") (word "security")),
  ("android studio", words2 "android" "studio")]

/-- Education keywords from the source, searched as case-insensitive
substrings of each line. -/
def EDUCATION_KEYWORDS : List String :=
  ["bachelor", "b.sc", "b.tech", "b.e", "master", "m.sc", "m.tech",
   "mba", "phd", "doctorate", "degree", "university", "college", "institute"]

/-- Skill detection over a text: the canonical names of the dictionary rules
that match, in dictionary order.  This is the skills projection of the
source's underscore-skill-match helper. -/
def skill_match (text : List Char) : List String :=
  SKILLS.filterMap (fun cp => if searchAux cp.2 none (lowerL text) then some cp.1 else none)

/-- Pattern one of experience extraction:
digits +? s* years? s* of s* (professional s*)? experience. -/
def expP1 : RE :=
  rseq [RE.capDigits, RE.opt (RE.lit '+'), RE.star .space, lits "year", RE.opt (RE.lit 's'),
        RE.star .space, lits "of", RE.star .space,
        RE.opt (RE.seq (lits "professional") (RE.star .space)), lits "experience"]

/-- Pattern two of experience extraction: digits +? s* years? s* experience. -/
def expP2 : RE :=
  rseq [RE.capDigits, RE.opt (RE.lit '+'), RE.star .space, lits "year", RE.opt (RE.lit 's'),
        RE.star .space, lits "experience"]

/-- Pattern three of experience extraction: experience s* [:-] s* digits +? s* years?. -/
def expP3 : RE :=
  rseq [lits "experience", RE.star .space, RE.cls (.oneOf [':', '-']), RE.star .space,
        RE.capDigits, RE.opt (RE.lit '+'), RE.star .space, lits "year", RE.opt (RE.lit 's')]

/-- Numeric value of an ASCII digit. -/
def digitVal (c : Char) : Nat := c.toNat - 48

/-- Value of a captured digit string, as Python's int. -/
def digitsToNat (l : List Char) : Nat := l.foldl (fun n c => 10 * n + digitVal c) 0

/-- Does a four-digit year of the findall pattern b(19[89]d|20[012]d)b start
with these four characters? -/
def yearShape (a b c d : Char) : Bool :=
  (a == '1' && b == '9' && (c == '8' || c == '9') && d.isDigit) ||
  (a == '2' && b == '0' && (c == '0' || c == '1' || c == '2') && d.isDigit)

/-- All four-digit years in the text in left-to-right, non-overlapping order,
as Python's re.findall with the year pattern.  The first argument is the
character before the current position. -/
def yearScan (p : Option Char) : List Char → List Nat
  | a :: b :: c :: d :: t =>
    if !wordCharO p && yearShape a b c d &&
        !(match t with | [] => false | e :: _ => wordChar e) then
      (1000 * digitVal a + 100 * digitVal b + 10 * digitVal c + digitVal d) :: yearScan (some d) t
    else yearScan (some a) (b :: c :: d :: t)
  | a :: t => yearScan (some a) t
  | [] => []

/-- Insertion into a strictly ascending list of naturals, keeping it a
sorted set; folding it over a list models Python's sorted(set(...)). -/
def insSorted (n : Nat) : List Nat → List Nat
  | [] => [n]
  | m :: t => if n < m then n :: m :: t else if n == m then m :: t else m :: insSorted n t

/-- The distinct values of a list in ascending order. -/
def sortedDistinct (l : List Nat) : List Nat := l.foldr insSorted []

/-- Experience-years extraction with its trace method name, embedding the
source's traced extractor: the three explicit phrasings in priority order on
the lower-cased text, then the year-span fallback on the distinct sorted
years, else zero with method not-detected. -/
def extract_experience_years (text : List Char) : Nat × String :=
  let tl := lowerL text
  match searchCap expP1 none tl with
  | some ds => (digitsToNat ds, "explicit_phrase_1")
  | none =>
    match searchCap expP2 none tl with
    | some ds => (digitsToNat ds, "explicit_phrase_2")
    | none =>
      match searchCap expP3 none tl with
      | some ds => (digitsToNat ds, "explicit_phrase_3")
      | none =>
        let uy := sortedDistinct (yearScan none text)
        if 2 ≤ uy.length then (uy.getLastD 0 - uy.headD 0, "year_span_fallback")
        else (0, "not_detected")

/-- Substring test, modelling Python's in operator on strings. -/
def hasSub (n : List Char) : List Char → Bool
  | [] => n.isEmpty
  | c :: t => leadsWith n (c :: t) || hasSub n t

/-- Split a text at newline characters, keeping empty segments, as Python's
str.split with a newline separator. -/
def splitNl : List Char → List (List Char)
  | [] => [[]]
  | c :: t =>
    if c == '\n' then [] :: splitNl t
    else
      match splitNl t with
      | [] => [[c]]
      | l :: ls => (c :: l) :: ls

/-- Leading and trailing whitespace removal, as Python's str.strip. -/
def stripWs (l : List Char) : List Char :=
  ((l.dropWhile spaceChar).reverse.dropWhile spaceChar).reverse

/-- Does a line qualify for education extraction: some keyword occurs in its
lower-cased form and its stripped form is longer than five characters. -/
def eduLineOk (line : List Char) : Bool :=
  EDUCATION_KEYWORDS.any (fun k => hasSub k.data (lowerL line)) &&
    decide (5 < (stripWs line).length)

/-- Education-line extraction: the stripped forms of the qualifying lines in
document order, truncated to the first five, embedding the source's
education extractor. -/
def extract_education (text : List Char) : List (List Char) :=
  ((splitNl text).filterMap
    (fun line => if eduLineOk line then some (stripWs line) else none)).take 5

/-- Normalised job posting.  The err field models the presence of an "error"
key in the posting record. -/
structure Posting where
  title : String
  company : String
  location : String
  description : String
  salary_min : Option Int
  salary_max : Option Int
  link : String
  source : String
  tags : List String
  match_score : Nat
  matching_skills : List String
  err : Bool
  deriving DecidableEq, Repr

/-- Candidate profile as consumed by the ranker.  The error field models the
presence of an "error" key in the extracted resume data. -/
structure Profile where
  error : Bool
  skills : List String
  job_titles : List String
  seniority : String
  deriving DecidableEq, Repr

/-- Space-joined list of texts, as Python's str.join with a space. -/
def joinSp : List (List Char) → List Char
  | [] => []
  | [x] => x
  | x :: y :: ys => x ++ ' ' :: joinSp (y :: ys)

/-- The search blob of a posting: title, description and space-joined tags,
separated by single spaces. -/
def blobOf (job : Posting) : List Char :=
  job.title.data ++ ' ' :: (job.description.data ++ ' ' :: joinSp (job.tags.map String.data))

/-- The profile's skills that match the blob, in dictionary order: the
matching list of the ranker (six points each). -/
def matchingOf (r : Profile) (blobL : List Char) : List String :=
  SKILLS.filterMap (fun cp =>
    if r.skills.contains cp.1 && searchAux cp.2 none blobL then some cp.1 else none)

/-- Does any of the profile's inferred titles occur in the lower-cased
posting title (twelve points once)? -/
def titleHit (r : Profile) (jtitleL : List Char) : Bool :=
  r.job_titles.any (fun t => hasSub (lowerL t.data) jtitleL)

/-- Does the non-empty seniority label occur in the lower-cased posting
title (four points)? -/
def seniorityHit (r : Profile) (jtitleL : List Char) : Bool :=
  !(r.seniority == "") && hasSub r.seniority.data jtitleL

/-- Does the tag's text match some rule of a skill the profile has
(three points per tag)? -/
def tagMatches (r : Profile) (tag : String) : Bool :=
  SKILLS.any (fun cp => r.skills.contains cp.1 && searchAux cp.2 none (lowerL tag.data))

/-- The ranker's matching skills for a posting. -/
def matchingSkills (r : Profile) (job : Posting) : List String :=
  matchingOf r (lowerL (blobOf job))

/-- The ranker's score for one posting: six per matching skill, twelve for a
title hit, four for a seniority hit, three per matching tag. -/
def scoreJob (r : Profile) (job : Posting) : Nat :=
  6 * (matchingSkills r job).length
    + (if titleHit r (lowerL job.title.data) then 12 else 0)
    + (if seniorityHit r (lowerL job.title.data) then 4 else 0)
    + 3 * (job.tags.filter (fun tg => tagMatches r tg)).length

/-- The scored copy of a posting: all fields kept, the two score fields
populated. -/
def scoredCopy (r : Profile) (job : Posting) : Posting :=
  { job with match_score := scoreJob r job, matching_skills := matchingSkills r job }

/-- Descending comparison on scores handed to the stable sort; ties compare
as true so that the merge keeps the left (earlier) element first. -/
def scoreLE (a b : Posting) : Bool := decide (b.match_score ≤ a.match_score)

/-- The scored copies of the non-error postings, in input order. -/
def scoredList (jobs : List Posting) (r : Profile) : List Posting :=
  jobs.filterMap (fun job => if job.err then none else some (scoredCopy r job))

/-- The ranker: pass the list through untouched when it is empty or the
profile carries an error; otherwise score every non-error posting and sort
the copies by descending score with a stable sort, as Python's list.sort
with reverse. -/
def rank_jobs_by_resume (jobs : List Posting) (r : Profile) : List Posting :=
  if jobs.isEmpty || r.error then jobs
  else (scoredList jobs r).mergeSort scoreLE

/-! Basic lemmas about the matcher's helpers. -/

theorem leadsWith_iff (l : List Char) : ∀ s, leadsWith l s = true ↔ ∃ t, s = l ++ t := by
  induction l with
  | nil => intro s; simp [leadsWith]
  | cons a u ih =>
    intro s
    cases s with
    | nil =>
      simp only [leadsWith, List.cons_append]
      constructor
      · intro h; cases h
      · rintro ⟨t, h⟩; cases h
    | cons b v =>
      simp only [leadsWith, Bool.and_eq_true, beq_iff_eq, ih, List.cons_append, List.cons.injEq]
      constructor
      · rintro ⟨rfl, t, rfl⟩; exact ⟨t, rfl, rfl⟩
      · rintro ⟨t, rfl, rfl⟩; exact ⟨rfl, t, rfl⟩

theorem self_mem_starSplits (k : CharCls) (p : Option Char) (s : List Char) :
    (p, s) ∈ starSplits k p s := by
  cases s with
  | nil => simp [starSplits]
  | cons c t =>
    by_cases h : clsMatch k c = true
    · simp [starSplits, h]
    · simp [starSplits, h]

theorem starSplits_ext (k : CharCls) (ext : List Char) :
    ∀ (s : List Char) (p : Option Char) (q : Option Char × List Char),
      q ∈ starSplits k p s → (q.1, q.2 ++ ext) ∈ starSplits k p (s ++ ext) := by
  intro s
  induction s with
  | nil =>
    intro p q hq
    simp only [starSplits, List.mem_singleton] at hq
    subst hq
    simpa using self_mem_starSplits k p ext
  | cons c t ih =>
    intro p q hq
    by_cases h : clsMatch k c = true
    · simp only [starSplits, h, if_true, List.mem_append, List.mem_singleton] at hq
      rcases hq with hq | hq
      · have := ih (some c) q hq
        simp only [List.cons_append, starSplits, h, if_true, List.mem_append, List.mem_singleton]
        exact Or.inl this
      · subst hq
        simp [List.cons_append, starSplits, h]
    · simp [starSplits, h] at hq
      subst hq
      simp [List.cons_append, starSplits, h]

theorem plusSplits_ext (k : CharCls) (ext : List Char) (s : List Char) (p : Option Char)
    (q : Option Char × List Char) (hq : q ∈ plusSplits k p s) :
    (q.1, q.2 ++ ext) ∈ plusSplits k p (s ++ ext) := by
  cases s with
  | nil => simp [plusSplits] at hq
  | cons c t =>
    by_cases h : clsMatch k c = true
    · simp only [plusSplits, h, if_true] at hq
      simpa [List.cons_append, plusSplits, h] using starSplits_ext k ext t (some c) q hq
    · simp [plusSplits, h] at hq

theorem self_mem_capSplits (acc : List Char) (p : Option Char) (s : List Char) :
    (acc, p, s) ∈ capSplits acc p s := by
  cases s with
  | nil => simp [capSplits]
  | cons c t =>
    by_cases h : c.isDigit = true
    · simp [capSplits, h]
    · simp [capSplits, h]

theorem capSplits_ext (ext : List Char) :
    ∀ (s acc : List Char) (p : Option Char) (q : List Char × Option Char × List Char),
      q ∈ capSplits acc p s → (q.1, q.2.1, q.2.2 ++ ext) ∈ capSplits acc p (s ++ ext) := by
  intro s
  induction s with
  | nil =>
    intro acc p q hq
    simp only [capSplits, List.mem_singleton] at hq
    subst hq
    simpa using self_mem_capSplits acc p ext
  | cons c t ih =>
    intro acc p q hq
    by_cases h : c.isDigit = true
    · simp only [capSplits, h, if_true, List.mem_append, List.mem_singleton] at hq
      rcases hq with hq | hq
      · have := ih (acc ++ [c]) (some c) q hq
        simp only [List.cons_append, capSplits, h, if_true, List.mem_append, List.mem_singleton]
        exact Or.inl this
      · subst hq
        simp [List.cons_append, capSplits, h]
    · simp [capSplits, h] at hq
      subst hq
      simp [List.cons_append, capSplits, h]

/-! Consumption: a match only moves forward through the input, and the
recorded previous character is the last character consumed. -/

theorem starSplits_consume (k : CharCls) :
    ∀ (s : List Char) (p : Option Char) (q : Option Char × List Char), q ∈ starSplits k p s →
      (q.1 = p ∧ q.2 = s) ∨ ∃ u c, s = u ++ c :: q.2 ∧ q.1 = some c := by
  intro s
  induction s with
  | nil =>
    intro p q hq
    simp only [starSplits, List.mem_singleton] at hq
    subst hq; exact Or.inl ⟨rfl, rfl⟩
  | cons c t ih =>
    intro p q hq
    by_cases h : clsMatch k c = true
    · simp only [starSplits, h, if_true, List.mem_append, List.mem_singleton] at hq
      rcases hq with hq | hq
      · rcases ih (some c) q hq with ⟨h1, h2⟩ | ⟨u, d, h1, h2⟩
        · exact Or.inr ⟨[], c, by simp [h2], h1⟩
        · exact Or.inr ⟨c :: u, d, by simp [h1], h2⟩
      · subst hq; exact Or.inl ⟨rfl, rfl⟩
    · simp [starSplits, h] at hq
      subst hq; exact Or.inl ⟨rfl, rfl⟩

theorem plusSplits_consume (k : CharCls) (s : List Char) (p : Option Char)
    (q : Option Char × List Char) (hq : q ∈ plusSplits k p s) :
    ∃ u c, s = u ++ c :: q.2 ∧ q.1 = some c := by
  cases s with
  | nil => simp [plusSplits] at hq
  | cons c t =>
    by_cases h : clsMatch k c = true
    · simp only [plusSplits, h, if_true] at hq
      rcases starSplits_consume k t (some c) q hq with ⟨h1, h2⟩ | ⟨u, d, h1, h2⟩
      · exact ⟨[], c, by simp [h2], h1⟩
      · exact ⟨c :: u, d, by simp [h1], h2⟩
    · simp [plusSplits, h] at hq

theorem capSplits_consume :
    ∀ (s acc : List Char) (p : Option Char) (q : List Char × Option Char × List Char),
      q ∈ capSplits acc p s →
      (q.2.1 = p ∧ q.2.2 = s) ∨ ∃ u c, s = u ++ c :: q.2.2 ∧ q.2.1 = some c := by
  intro s
  induction s with
  | nil =>
    intro acc p q hq
    simp only [capSplits, List.mem_singleton] at hq
    subst hq; exact Or.inl ⟨rfl, rfl⟩
  | cons c t ih =>
    intro acc p q hq
    by_cases h : c.isDigit = true
    · simp only [capSplits, h, if_true, List.mem_append, List.mem_singleton] at hq
      rcases hq with hq | hq
      · rcases ih (acc ++ [c]) (some c) q hq with ⟨h1, h2⟩ | ⟨u, d, h1, h2⟩
        · exact Or.inr ⟨[], c, by simp [h2], h1⟩
        · exact Or.inr ⟨c :: u, d, by simp [h1], h2⟩
      · subst hq; exact Or.inl ⟨rfl, rfl⟩
    · simp [capSplits, h] at hq
      subst hq; exact Or.inl ⟨rfl, rfl⟩

theorem reMatches_consume :
    ∀ (r : RE) (st st' : MState), st' ∈ reMatches r st →
      (st'.prev = st.prev ∧ st'.rest = st.rest) ∨
        ∃ u c, st.rest = u ++ c :: st'.rest ∧ st'.prev = some c := by
  intro r
  induction r with
  | eps =>
    intro st st' h
    simp only [reMatches, List.mem_singleton] at h
    subst h; exact Or.inl ⟨rfl, rfl⟩
  | lit c =>
    intro st st' h
    obtain ⟨p, rest, cap⟩ := st
    cases rest with
    | nil => simp [reMatches] at h
    | cons d t =>
      by_cases hd : (d == c) = true
      · simp only [reMatches, hd, if_true, List.mem_singleton] at h
        subst h; exact Or.inr ⟨[], d, by simp, rfl⟩
      · simp [reMatches, hd] at h
  | cls k =>
    intro st st' h
    obtain ⟨p, rest, cap⟩ := st
    cases rest with
    | nil => simp [reMatches] at h
    | cons d t =>
      by_cases hd : clsMatch k d = true
      · simp only [reMatches, hd, if_true, List.mem_singleton] at h
        subst h; exact Or.inr ⟨[], d, by simp, rfl⟩
      · simp [reMatches, hd] at h
  | star k =>
    intro st st' h
    simp only [reMatches, List.mem_map] at h
    obtain ⟨q, hq, hst⟩ := h
    subst hst
    exact starSplits_consume k st.rest st.prev q hq
  | plus k =>
    intro st st' h
    simp only [reMatches, List.mem_map] at h
    obtain ⟨q, hq, hst⟩ := h
    subst hst
    exact Or.inr (plusSplits_consume k st.rest st.prev q hq)
  | opt r ih =>
    intro st st' h
    simp only [reMatches, List.mem_append, List.mem_singleton] at h
    rcases h with h | h
    · exact ih st st' h
    · subst h; exact Or.inl ⟨rfl, rfl⟩
  | seq a b iha ihb =>
    intro st st' h
    simp only [reMatches, List.mem_flatMap] at h
    obtain ⟨mid, hmid, hst⟩ := h
    rcases iha st mid hmid with ⟨ha1, ha2⟩ | ⟨u, c, ha1, ha2⟩
    · rcases ihb mid st' hst with ⟨hb1, hb2⟩ | ⟨u, c, hb1, hb2⟩
      · exact Or.inl ⟨hb1.trans ha1, hb2.trans ha2⟩
      · exact Or.inr ⟨u, c, by rw [← ha2]; exact hb1, hb2⟩
    · rcases ihb mid st' hst with ⟨hb1, hb2⟩ | ⟨u', c', hb1, hb2⟩
      · exact Or.inr ⟨u, c, by rw [ha1, hb2], hb1.trans ha2⟩
      · refine Or.inr ⟨u ++ c :: u', c', ?_, hb2⟩
        rw [ha1, hb1]; simp
  | alt a b iha ihb =>
    intro st st' h
    simp only [reMatches, List.mem_append] at h
    rcases h with h | h
    · exact iha st st' h
    · exact ihb st st' h
  | wb =>
    intro st st' h
    by_cases hb : atBoundary st.prev st.rest = true
    · simp only [reMatches, hb, if_true, List.mem_singleton] at h
      subst h; exact Or.inl ⟨rfl, rfl⟩
    · simp [reMatches, hb] at h
  | wbNla l =>
    intro st st' h
    by_cases hb : (atBoundary st.prev st.rest && !leadsWith l st.rest) = true
    · simp only [reMatches, hb, if_true, List.mem_singleton] at h
      subst h; exact Or.inl ⟨rfl, rfl⟩
    · simp [reMatches, hb] at h
  | pla r ih =>
    intro st st' h
    by_cases hb : (reMatches r st).isEmpty = true
    · simp [reMatches, hb] at h
    · simp [reMatches, hb] at h
      subst h; exact Or.inl ⟨rfl, rfl⟩
  | capDigits =>
    intro st st' h
    obtain ⟨p, rest, cap⟩ := st
    cases rest with
    | nil => simp [reMatches] at h
    | cons d t =>
      by_cases hd : d.isDigit = true
      · simp only [reMatches, hd, if_true, List.mem_map] at h
        obtain ⟨q, hq, hst⟩ := h
        subst hst
        rcases capSplits_consume t [d] (some d) q hq with ⟨h1, h2⟩ | ⟨u, c, h1, h2⟩
        · exact Or.inr ⟨[], d, by simp [h2], h1⟩
        · exact Or.inr ⟨d :: u, c, by simp [h1], h2⟩
      · simp [reMatches, hd] at h

/-- Invariant used for appending after a string that ends in a space: either
characters remain and the last of them is a space, or everything has been
consumed and the last consumed character was the space. -/
def tailSp (p : Option Char) : List Char → Prop
  | [] => p = some ' '
  | c :: t => (c :: t).getLast? = some ' '

theorem tailSp_preserve (r : RE) (st st' : MState) (h : st' ∈ reMatches r st)
    (hi : tailSp st.prev st.rest) : tailSp st'.prev st'.rest := by
  rcases reMatches_consume r st st' h with ⟨h1, h2⟩ | ⟨u, c, h1, h2⟩
  · rw [h1, h2]; exact hi
  · have hlast : st.rest.getLast? = some ' ' := by
      rcases hs : st.rest with _ | ⟨x, xs⟩
      · rw [hs] at h1; exact absurd h1 (by simp)
      · rw [hs] at hi
        simpa [tailSp] using hi
    rcases hr : st'.rest with _ | ⟨x, xs⟩
    · rw [hr] at h1
      have hc : st.rest.getLast? = some c := by
        rw [h1]; exact List.getLast?_concat u
      rw [hc] at hlast
      simp only [tailSp, h2]
      exact hlast
    · rw [hr] at h1
      have hre : st.rest = (u ++ [c]) ++ (x :: xs) := by rw [h1]; simp
      rw [hre, List.getLast?_append] at hlast
      simp only [tailSp]
      cases hg : (x :: xs).getLast? with
      | none => rw [List.getLast?_eq_none_iff] at hg; cases hg
      | some y =>
        rw [hg] at hlast
        simpa using hlast


/-! Appending text to the searched string cannot destroy a match, under the
conditions met by the ranking blobs: either the appended text starts with a
space, or the original string ends with a space.  This backs the score
monotonicity of adding a tag. -/

theorem wordChar_sp : wordChar ' ' = false := by decide

theorem atBoundary_nil (p : Option Char) : atBoundary p [] = wordCharO p := by
  simp [atBoundary]

theorem atBoundary_cons (p : Option Char) (c : Char) (t : List Char) :
    atBoundary p (c :: t) = (wordCharO p != wordChar c) := by
  simp [atBoundary]

theorem atBoundary_sp (p : Option Char) (w : List Char) :
    atBoundary p (' ' :: w) = wordCharO p := by
  simp [atBoundary_cons, wordChar_sp]

/-- Expressions whose matches survive the appends described above: every
negative-lookahead literal is space-free. -/
def extSafe : RE → Bool
  | .opt r => extSafe r
  | .seq a b => extSafe a && extSafe b
  | .alt a b => extSafe a && extSafe b
  | .wbNla l => !(l.contains ' ')
  | .pla r => extSafe r
  | _ => true

theorem leadsWith_sp (l : List Char) (hsp : l.contains ' ' = false) :
    ∀ (s w : List Char), leadsWith l (s ++ ' ' :: w) = true → leadsWith l s = true := by
  induction l with
  | nil => intro s w _; rfl
  | cons a l' ih =>
    intro s w h
    have ha : (a == ' ') = false := by
      cases hae : (a == ' ') with
      | false => rfl
      | true =>
        exfalso
        rw [beq_iff_eq] at hae
        subst hae
        simp at hsp
    have hsp' : l'.contains ' ' = false := by
      simp only [List.contains_cons, Bool.or_eq_false_iff] at hsp
      exact hsp.2
    cases s with
    | nil => simp [leadsWith, ha] at h
    | cons c t =>
      simp only [List.cons_append, leadsWith, Bool.and_eq_true] at h ⊢
      exact ⟨h.1, ih hsp' t w h.2⟩

theorem leadsWith_shrink (l : List Char) (hsp : l.contains ' ' = false) :
    ∀ (s ext : List Char), s.getLast? = some ' ' → leadsWith l (s ++ ext) = true →
      leadsWith l s = true := by
  induction l with
  | nil => intro s ext _ _; rfl
  | cons a l' ih =>
    intro s ext hlast h
    have ha : (a == ' ') = false := by
      cases hae : (a == ' ') with
      | false => rfl
      | true =>
        exfalso
        rw [beq_iff_eq] at hae
        subst hae
        simp at hsp
    have hsp' : l'.contains ' ' = false := by
      simp only [List.contains_cons, Bool.or_eq_false_iff] at hsp
      exact hsp.2
    cases s with
    | nil => simp at hlast
    | cons c t =>
      simp only [List.cons_append, leadsWith, Bool.and_eq_true] at h
      obtain ⟨hac, h⟩ := h
      cases t with
      | nil =>
        exfalso
        have hc : c = ' ' := by simpa using hlast
        rw [beq_iff_eq] at hac
        rw [hac, hc] at ha
        simp at ha
      | cons d t' =>
        simp only [leadsWith, Bool.and_eq_true]
        refine ⟨hac, ih hsp' (d :: t') ext ?_ h⟩
        simpa using hlast

theorem reMatches_ext (ext : List Char) :
    ∀ (r : RE), extSafe r = true → ∀ (st st' : MState),
      ((∃ w, ext = ' ' :: w) ∨ tailSp st.prev st.rest) → st' ∈ reMatches r st →
      (⟨st'.prev, st'.rest ++ ext, st'.cap⟩ : MState) ∈
        reMatches r ⟨st.prev, st.rest ++ ext, st.cap⟩ := by
  intro r
  induction r with
  | eps =>
    intro _ st st' _ h
    simp only [reMatches, List.mem_singleton] at h ⊢
    subst h; rfl
  | lit c =>
    intro _ st st' _ h
    obtain ⟨p, rest, cap⟩ := st
    cases rest with
    | nil => simp [reMatches] at h
    | cons d t =>
      by_cases hd : (d == c) = true
      · simp only [reMatches, hd, if_true, List.mem_singleton] at h
        subst h
        simp [reMatches, hd]
      · simp [reMatches, hd] at h
  | cls k =>
    intro _ st st' _ h
    obtain ⟨p, rest, cap⟩ := st
    cases rest with
    | nil => simp [reMatches] at h
    | cons d t =>
      by_cases hd : clsMatch k d = true
      · simp only [reMatches, hd, if_true, List.mem_singleton] at h
        subst h
        simp [reMatches, hd]
      · simp [reMatches, hd] at h
  | star k =>
    intro _ st st' _ h
    simp only [reMatches, List.mem_map] at h ⊢
    obtain ⟨q, hq, hst⟩ := h
    refine ⟨(q.1, q.2 ++ ext), starSplits_ext k ext st.rest st.prev q hq, ?_⟩
    rw [← hst]
  | plus k =>
    intro _ st st' _ h
    simp only [reMatches, List.mem_map] at h ⊢
    obtain ⟨q, hq, hst⟩ := h
    refine ⟨(q.1, q.2 ++ ext), plusSplits_ext k ext st.rest st.prev q hq, ?_⟩
    rw [← hst]
  | opt r ih =>
    intro hs st st' hc h
    simp only [extSafe] at hs
    simp only [reMatches, List.mem_append, List.mem_singleton] at h ⊢
    rcases h with h | h
    · exact Or.inl (ih hs st st' hc h)
    · subst h; exact Or.inr rfl
  | seq a b iha ihb =>
    intro hs st st' hc h
    simp only [extSafe, Bool.and_eq_true] at hs
    simp only [reMatches, List.mem_flatMap] at h ⊢
    obtain ⟨mid, hmid, hst⟩ := h
    have hcmid : (∃ w, ext = ' ' :: w) ∨ tailSp mid.prev mid.rest := by
      rcases hc with hc | hc
      · exact Or.inl hc
      · exact Or.inr (tailSp_preserve a st mid hmid hc)
    exact ⟨⟨mid.prev, mid.rest ++ ext, mid.cap⟩, iha hs.1 st mid hc hmid,
      ihb hs.2 mid st' hcmid hst⟩
  | alt a b iha ihb =>
    intro hs st st' hc h
    simp only [extSafe, Bool.and_eq_true] at hs
    simp only [reMatches, List.mem_append] at h ⊢
    rcases h with h | h
    · exact Or.inl (iha hs.1 st st' hc h)
    · exact Or.inr (ihb hs.2 st st' hc h)
  | wb =>
    intro _ st st' hc h
    obtain ⟨p, rest, cap⟩ := st
    cases rest with
    | nil =>
      by_cases hb : atBoundary p [] = true
      · simp only [reMatches, hb, if_true, List.mem_singleton] at h
        subst h
        rcases hc with ⟨w, rfl⟩ | hc
        · have hb2 : atBoundary p (' ' :: w) = true := by
            rw [atBoundary_sp]
            rw [atBoundary_nil] at hb
            exact hb
          simp [reMatches, hb2]
        · exfalso
          have hp : p = some ' ' := hc
          rw [atBoundary_nil, hp] at hb
          simp [wordCharO, wordChar_sp] at hb
      · simp [reMatches, hb] at h
    | cons d t =>
      by_cases hb : atBoundary p (d :: t) = true
      · simp only [reMatches, hb, if_true, List.mem_singleton] at h
        subst h
        have hb2 : atBoundary p (d :: (t ++ ext)) = true := by
          rw [atBoundary_cons]
          rw [atBoundary_cons] at hb
          exact hb
        simp [reMatches, hb2]
      · simp [reMatches, hb] at h
  | wbNla l =>
    intro hs st st' hc h
    simp only [extSafe, Bool.not_eq_eq_eq_not, Bool.not_true] at hs
    obtain ⟨p, rest, cap⟩ := st
    cases rest with
    | nil =>
      by_cases hb : (atBoundary p [] && !leadsWith l []) = true
      · simp only [reMatches, hb, if_true, List.mem_singleton] at h
        subst h
        rcases hc with ⟨w, rfl⟩ | hc
        · have hcond : (atBoundary p (' ' :: w) && !leadsWith l (' ' :: w)) = true := by
            rw [Bool.and_eq_true] at hb ⊢
            refine ⟨by rw [atBoundary_sp]; rw [atBoundary_nil] at hb; exact hb.1, ?_⟩
            cases l with
            | nil => simp [leadsWith] at hb
            | cons a l' =>
              have ha : (a == ' ') = false := by
                cases hae : (a == ' ') with
                | false => rfl
                | true =>
                  exfalso
                  rw [beq_iff_eq] at hae
                  subst hae
                  simp at hs
              simp [leadsWith, ha]
          simp [reMatches, hcond]
        · exfalso
          have hp : p = some ' ' := hc
          rw [Bool.and_eq_true, atBoundary_nil, hp] at hb
          simpa [wordCharO, wordChar_sp] using hb.1
      · simp [reMatches, hb] at h
    | cons d t =>
      by_cases hb : (atBoundary p (d :: t) && !leadsWith l (d :: t)) = true
      · simp only [reMatches, hb, if_true, List.mem_singleton] at h
        subst h
        rw [Bool.and_eq_true] at hb
        have hbd : atBoundary p (d :: (t ++ ext)) = true := by
          rw [atBoundary_cons]
          rw [atBoundary_cons] at hb
          exact hb.1
        have hlw : leadsWith l (d :: t) = false := by
          rcases hlw' : leadsWith l (d :: t) with _ | _
          · rfl
          · rw [hlw'] at hb; simp at hb
        have hnl : leadsWith l ((d :: t) ++ ext) = false := by
          rcases hx : leadsWith l ((d :: t) ++ ext) with _ | _
          · rfl
          · exfalso
            rcases hc with ⟨w, rfl⟩ | hc
            · rw [leadsWith_sp l hs (d :: t) w hx] at hlw
              cases hlw
            · have hlast : (d :: t).getLast? = some ' ' := hc
              rw [leadsWith_shrink l hs (d :: t) ext hlast hx] at hlw
              cases hlw
        have hcond : (atBoundary p (d :: (t ++ ext)) && !leadsWith l (d :: (t ++ ext))) = true := by
          rw [Bool.and_eq_true, hbd]
          refine ⟨rfl, ?_⟩
          rw [List.cons_append] at hnl
          rw [hnl]
          rfl
        simp [reMatches, hcond]
      · simp [reMatches, hb] at h
  | pla r ih =>
    intro hs st st' hc h
    simp only [extSafe] at hs
    by_cases hb : (reMatches r st).isEmpty = true
    · simp [reMatches, hb] at h
    · have hne : reMatches r st ≠ [] := by
        intro hx; rw [hx] at hb; simp at hb
      obtain ⟨b0, hb0⟩ := List.exists_mem_of_ne_nil _ hne
      have hmem := ih hs st b0 hc hb0
      have hne2 : reMatches r ⟨st.prev, st.rest ++ ext, st.cap⟩ ≠ [] :=
        List.ne_nil_of_mem hmem
      have hb2 : (reMatches r ⟨st.prev, st.rest ++ ext, st.cap⟩).isEmpty = false := by
        rcases hre : reMatches r ⟨st.prev, st.rest ++ ext, st.cap⟩ with _ | ⟨x, xs⟩
        · exact absurd hre hne2
        · rfl
      have hst : st' = st := by
        simp [reMatches, hb] at h
        exact h
      subst hst
      simp [reMatches, hb2]
  | capDigits =>
    intro _ st st' _ h
    obtain ⟨p, rest, cap⟩ := st
    cases rest with
    | nil => simp [reMatches] at h
    | cons d t =>
      by_cases hd : d.isDigit = true
      · simp only [reMatches, hd, if_true, List.mem_map] at h
        obtain ⟨q, hq, hst⟩ := h
        simp only [List.cons_append, reMatches, hd, if_true, List.mem_map]
        refine ⟨(q.1, q.2.1, q.2.2 ++ ext), capSplits_ext ext t [d] (some d) q hq, ?_⟩
        rw [← hst]
      · simp [reMatches, hd] at h

/-! Search-level consequences of the extension lemma, and positional search
lemmas used to exhibit matches at known positions. -/

theorem searchAux_of_matches (r : RE) (p : Option Char) (s : List Char)
    (h : reMatches r ⟨p, s, none⟩ ≠ []) : searchAux r p s = true := by
  have hne : (reMatches r ⟨p, s, none⟩).isEmpty = false := by
    rcases hre : reMatches r ⟨p, s, none⟩ with _ | ⟨x, xs⟩
    · exact absurd hre h
    · rfl
  cases s with
  | nil => simp [searchAux, hne]
  | cons c t => simp [searchAux, hne]

theorem ne_nil_of_not_isEmpty {α : Type} {l : List α} (h : (!l.isEmpty) = true) : l ≠ [] := by
  intro hx
  subst hx
  simp at h

theorem searchAux_ext_sp (r : RE) (hs : extSafe r = true) (w : List Char) :
    ∀ (s : List Char) (p : Option Char), searchAux r p s = true →
      searchAux r p (s ++ ' ' :: w) = true := by
  intro s
  induction s with
  | nil =>
    intro p h
    simp only [searchAux] at h
    obtain ⟨b0, hb0⟩ := List.exists_mem_of_ne_nil _ (ne_nil_of_not_isEmpty h)
    have hmem := reMatches_ext (' ' :: w) r hs ⟨p, [], none⟩ b0 (Or.inl ⟨w, rfl⟩) hb0
    exact searchAux_of_matches r p ([] ++ ' ' :: w) (List.ne_nil_of_mem hmem)
  | cons c t ih =>
    intro p h
    simp only [searchAux, Bool.or_eq_true] at h
    rcases h with h | h
    · obtain ⟨b0, hb0⟩ := List.exists_mem_of_ne_nil _ (ne_nil_of_not_isEmpty h)
      have hmem := reMatches_ext (' ' :: w) r hs ⟨p, c :: t, none⟩ b0 (Or.inl ⟨w, rfl⟩) hb0
      exact searchAux_of_matches r p ((c :: t) ++ ' ' :: w) (List.ne_nil_of_mem hmem)
    · rw [List.cons_append]
      simp only [searchAux, Bool.or_eq_true]
      exact Or.inr (ih (some c) h)

theorem searchAux_ext_tail (r : RE) (hs : extSafe r = true) (w : List Char) :
    ∀ (s : List Char) (p : Option Char), tailSp p s → searchAux r p s = true →
      searchAux r p (s ++ w) = true := by
  intro s
  induction s with
  | nil =>
    intro p hts h
    simp only [searchAux] at h
    obtain ⟨b0, hb0⟩ := List.exists_mem_of_ne_nil _ (ne_nil_of_not_isEmpty h)
    have hmem := reMatches_ext w r hs ⟨p, [], none⟩ b0 (Or.inr hts) hb0
    exact searchAux_of_matches r p ([] ++ w) (List.ne_nil_of_mem hmem)
  | cons c t ih =>
    intro p hts h
    simp only [searchAux, Bool.or_eq_true] at h
    rcases h with h | h
    · obtain ⟨b0, hb0⟩ := List.exists_mem_of_ne_nil _ (ne_nil_of_not_isEmpty h)
      have hmem := reMatches_ext w r hs ⟨p, c :: t, none⟩ b0 (Or.inr hts) hb0
      exact searchAux_of_matches r p ((c :: t) ++ w) (List.ne_nil_of_mem hmem)
    · have hts' : tailSp (some c) t := by
        cases t with
        | nil => simpa [tailSp] using hts
        | cons d t' =>
          simp only [tailSp] at hts ⊢
          simpa using hts
      rw [List.cons_append]
      simp only [searchAux, Bool.or_eq_true]
      exact Or.inr (ih (some c) hts' h)

/-- Last character of a list, falling back to the given previous character:
the previous-character value seen by the matcher after skipping the list. -/
def lastC (p : Option Char) : List Char → Option Char
  | [] => p
  | c :: t => lastC (some c) t

theorem lastC_append (a : List Char) : ∀ (p : Option Char) (b : List Char),
    lastC p (a ++ b) = lastC (lastC p a) b := by
  induction a with
  | nil => intro p b; rfl
  | cons c t ih => intro p b; exact ih (some c) b

theorem lastC_concat (p : Option Char) (a : List Char) (c : Char) :
    lastC p (a ++ [c]) = some c := by
  rw [lastC_append]; rfl

theorem lastC_irrel (p q : Option Char) (u : List Char) (h : u ≠ []) :
    lastC p u = lastC q u := by
  cases u with
  | nil => exact absurd rfl h
  | cons c t => rfl

theorem searchAux_append (r : RE) :
    ∀ (u : List Char) (p : Option Char) (s : List Char),
      searchAux r (lastC p u) s = true → searchAux r p (u ++ s) = true := by
  intro u
  induction u with
  | nil => intro p s h; simpa using h
  | cons c t ih =>
    intro p s h
    rw [List.cons_append]
    simp only [searchAux, Bool.or_eq_true]
    exact Or.inr (ih (some c) s h)

theorem searchAux_alt_left (a b : RE) :
    ∀ (s : List Char) (p : Option Char), searchAux a p s = true →
      searchAux (RE.alt a b) p s = true := by
  intro s
  induction s with
  | nil =>
    intro p h
    simp only [searchAux] at h
    apply searchAux_of_matches
    simp only [reMatches]
    exact List.append_ne_nil_of_left_ne_nil (ne_nil_of_not_isEmpty h) _
  | cons c t ih =>
    intro p h
    simp only [searchAux, Bool.or_eq_true] at h
    rcases h with h | h
    · apply searchAux_of_matches
      simp only [reMatches]
      exact List.append_ne_nil_of_left_ne_nil (ne_nil_of_not_isEmpty h) _
    · simp only [searchAux, Bool.or_eq_true]
      exact Or.inr (ih (some c) h)

theorem searchAux_alt_right (a b : RE) :
    ∀ (s : List Char) (p : Option Char), searchAux b p s = true →
      searchAux (RE.alt a b) p s = true := by
  intro s
  induction s with
  | nil =>
    intro p h
    simp only [searchAux] at h
    apply searchAux_of_matches
    simp only [reMatches]
    exact List.append_ne_nil_of_right_ne_nil _ (ne_nil_of_not_isEmpty h)
  | cons c t ih =>
    intro p h
    simp only [searchAux, Bool.or_eq_true] at h
    rcases h with h | h
    · apply searchAux_of_matches
      simp only [reMatches]
      exact List.append_ne_nil_of_right_ne_nil _ (ne_nil_of_not_isEmpty h)
    · simp only [searchAux, Bool.or_eq_true]
      exact Or.inr (ih (some c) h)

theorem mem_reMatches_litsL :
    ∀ (l : List Char) (p : Option Char) (X : List Char) (cap : Option (List Char)),
      (⟨lastC p l, X, cap⟩ : MState) ∈ reMatches (litsL l) ⟨p, l ++ X, cap⟩ := by
  intro l
  induction l with
  | nil =>
    intro p X cap
    simp [litsL, reMatches, lastC]
  | cons c t ih =>
    intro p X cap
    have hl : litsL (c :: t) = RE.seq (RE.lit c) (litsL t) := by simp [litsL]
    rw [hl]
    simp only [reMatches, List.mem_flatMap]
    exact ⟨⟨some c, t ++ X, cap⟩, by simp [reMatches], ih (some c) X cap⟩

/-- Does the text start with a non-word character or end here?  The trailing
context under which a word-bounded literal still matches. -/
def headNW : List Char → Bool
  | [] => true
  | c :: _ => !wordChar c

theorem mem_reMatches_seq {a b : RE} {st mid fin : MState}
    (h1 : mid ∈ reMatches a st) (h2 : fin ∈ reMatches b mid) :
    fin ∈ reMatches (RE.seq a b) st := by
  show fin ∈ (reMatches a st).flatMap (fun st2 => reMatches b st2)
  exact List.mem_flatMap.mpr ⟨mid, h1, h2⟩

theorem mem_reMatches_wb (p : Option Char) (s : List Char) (cap : Option (List Char))
    (h : atBoundary p s = true) :
    (⟨p, s, cap⟩ : MState) ∈ reMatches RE.wb ⟨p, s, cap⟩ := by
  simp [reMatches, h]

theorem wordL_hit (c : Char) (t X : List Char) (p : Option Char) (cap : Option (List Char))
    (h1 : wordCharO p = false) (h2 : wordChar c = true)
    (h3 : wordCharO (lastC (some c) t) = true) (h4 : headNW X = true) :
    (⟨lastC (some c) t, X, cap⟩ : MState) ∈ reMatches (wordL (c :: t)) ⟨p, (c :: t) ++ X, cap⟩ := by
  have hb : atBoundary p ((c :: t) ++ X) = true := by
    rw [List.cons_append, atBoundary_cons, h1, h2]; rfl
  have hb2 : atBoundary (lastC (some c) t) X = true := by
    cases X with
    | nil => rw [atBoundary_nil, h3]
    | cons x xs =>
      have hx : wordChar x = false := by
        simp only [headNW, Bool.not_eq_eq_eq_not, Bool.not_true] at h4
        exact h4
      rw [atBoundary_cons, h3, hx]; rfl
  exact mem_reMatches_seq (mem_reMatches_wb p ((c :: t) ++ X) cap hb)
    (mem_reMatches_seq (mem_reMatches_litsL (c :: t) p X cap)
      (mem_reMatches_wb (lastC (some c) t) X cap hb2))

theorem searchAux_word (c : Char) (t : List Char) (U X : List Char) (p : Option Char)
    (h1 : wordCharO (lastC p U) = false) (h2 : wordChar c = true)
    (h3 : wordCharO (lastC (some c) t) = true) (h4 : headNW X = true) :
    searchAux (wordL (c :: t)) p (U ++ ((c :: t) ++ X)) = true := by
  apply searchAux_append
  exact searchAux_of_matches _ _ _
    (List.ne_nil_of_mem (wordL_hit c t X (lastC p U) none h1 h2 h3 h4))

/-! Monotonicity of the blob search under appending one tag. -/

theorem skills_extSafe : ∀ cp ∈ SKILLS, extSafe cp.2 = true := by decide

theorem toLower_sp : Char.toLower ' ' = ' ' := by decide

theorem tailSp_of_getLast (p : Option Char) (s : List Char) (hne : s ≠ [])
    (h : s.getLast? = some ' ') : tailSp p s := by
  cases s with
  | nil => exact absurd rfl hne
  | cons c t => exact h

theorem joinSp_snoc (x : List Char) : ∀ (l : List (List Char)), l ≠ [] →
    joinSp (l ++ [x]) = joinSp l ++ ' ' :: x := by
  intro l
  induction l with
  | nil => intro h; exact absurd rfl h
  | cons a as ih =>
    intro _
    cases as with
    | nil => rfl
    | cons b bs =>
      have hrec := ih (by simp)
      show joinSp (a :: ((b :: bs) ++ [x])) = (a ++ ' ' :: joinSp (b :: bs)) ++ ' ' :: x
      have hcons : joinSp (a :: ((b :: bs) ++ [x])) = a ++ ' ' :: joinSp ((b :: bs) ++ [x]) := by
        rw [List.cons_append]
        rfl
      rw [hcons, hrec]
      simp

theorem lowerL_blob_snoc_nil (job : Posting) (tg : String) (htags : job.tags = []) :
    lowerL (blobOf { job with tags := job.tags ++ [tg] })
      = lowerL (blobOf job) ++ lowerL tg.data := by
  obtain ⟨ti, co, lo, de, s1, s2, li, so, tags, ms, mk, er⟩ := job
  simp only at htags
  subst htags
  simp [blobOf, joinSp, lowerL, toLower_sp, List.append_assoc]

theorem lowerL_blob_snoc_cons (job : Posting) (tg : String) (a : String) (as : List String)
    (htags : job.tags = a :: as) :
    lowerL (blobOf { job with tags := job.tags ++ [tg] })
      = lowerL (blobOf job) ++ ' ' :: lowerL tg.data := by
  obtain ⟨ti, co, lo, de, s1, s2, li, so, tags, ms, mk, er⟩ := job
  simp only at htags
  subst htags
  have hj : joinSp ((a.data :: List.map String.data as) ++ [tg.data])
      = joinSp (a.data :: List.map String.data as) ++ ' ' :: tg.data :=
    joinSp_snoc tg.data _ (by simp)
  simp only [blobOf, List.map_append, List.map_cons, List.map_nil]
  rw [← List.cons_append, hj]
  simp [lowerL, toLower_sp, List.append_assoc]

theorem blob_tailSp (job : Posting) (htags : job.tags = []) :
    tailSp none (lowerL (blobOf job)) := by
  obtain ⟨ti, co, lo, de, s1, s2, li, so, tags, ms, mk, er⟩ := job
  simp only at htags
  subst htags
  apply tailSp_of_getLast
  · simp [blobOf, lowerL]
  · simp only [blobOf, joinSp, lowerL, List.map_append, List.map_cons, List.map_nil]
    rw [toLower_sp]
    have hsh : ∀ (A B : List Char), A ++ ' ' :: (B ++ ' ' :: ([] : List Char))
        = (A ++ ' ' :: B) ++ [' '] := by
      intro A B; simp
    rw [hsh]
    exact List.getLast?_concat _

theorem search_blob_ext (rx : RE) (hs : extSafe rx = true) (job : Posting) (tg : String)
    (h : searchAux rx none (lowerL (blobOf job)) = true) :
    searchAux rx none (lowerL (blobOf { job with tags := job.tags ++ [tg] })) = true := by
  rcases htags : job.tags with _ | ⟨a, as⟩
  · have heq := lowerL_blob_snoc_nil job tg htags
    rw [htags] at heq
    rw [heq]
    exact searchAux_ext_tail rx hs (lowerL tg.data) _ none (blob_tailSp job htags) h
  · have heq := lowerL_blob_snoc_cons job tg a as htags
    rw [htags] at heq
    rw [heq]
    exact searchAux_ext_sp rx hs (lowerL tg.data) _ none h

theorem filterMap_sublist {α β : Type} (f g : α → Option β) :
    ∀ (l : List α), (∀ x ∈ l, ∀ y, f x = some y → g x = some y) →
      List.Sublist (l.filterMap f) (l.filterMap g) := by
  intro l
  induction l with
  | nil => intro _; simp
  | cons a t ih =>
    intro h
    have ht := ih (fun x hx y hy => h x (List.mem_cons_of_mem a hx) y hy)
    cases hf : f a with
    | none =>
      rw [List.filterMap_cons, hf]
      cases hg : g a with
      | none => rw [List.filterMap_cons, hg]; exact ht
      | some y => rw [List.filterMap_cons, hg]; exact ht.cons y
    | some y =>
      have hg : g a = some y := h a (List.mem_cons_self a t) y hf
      rw [List.filterMap_cons, hf, List.filterMap_cons, hg]
      exact ht.cons₂ y

theorem matchingSkills_tag_sublist (r : Profile) (job : Posting) (tg : String) :
    List.Sublist (matchingSkills r job) (matchingSkills r { job with tags := job.tags ++ [tg] }) := by
  unfold matchingSkills matchingOf
  apply filterMap_sublist
  intro cp hcp y hy
  split at hy
  next hcond =>
    rw [Bool.and_eq_true] at hcond
    have hnew := search_blob_ext cp.2 (skills_extSafe cp hcp) job tg hcond.2
    simp only [hcond.1, hnew, Bool.and_self, if_true]
    exact hy
  next => exact absurd hy (by simp)

theorem tagFilter_snoc (r : Profile) (tags : List String) (tg : String)
    (h : tagMatches r tg = true) :
    (tags ++ [tg]).filter (fun x => tagMatches r x)
      = tags.filter (fun x => tagMatches r x) ++ [tg] := by
  rw [List.filter_append]
  simp [List.filter, h]

/-- Profile and posting on which the tag bonus is not exactly three points:
the added tag also makes the python rule match the blob, so the score rises
by nine. -/
def profC2 : Profile := ⟨false, ["python"], [], ""⟩

/-- Posting with an empty tag list used in the C2 counterexample. -/
def jobC2 : Posting := ⟨"x", "c", "l", "", none, none, "k", "s", [], 0, [], false⟩

/-- C2 counterexample: adding the matching tag "python" to a posting whose
blob did not previously match the python rule changes the match score by
nine points, not by exactly three, refuting the claim as stated.  The score
moves from zero to nine. -/
theorem C2_counterexample :
    tagMatches profC2 "python" = true ∧
      scoreJob profC2 jobC2 = 0 ∧
      scoreJob profC2 { jobC2 with tags := jobC2.tags ++ ["python"] } = 9 ∧
      scoreJob profC2 { jobC2 with tags := jobC2.tags ++ ["python"] }
        ≠ scoreJob profC2 jobC2 + 3 := by
  refine ⟨by decide, by decide, by decide, by decide⟩

/-- C2 (amended): appending one tag that matches one of the profile's skill
rules never decreases the posting's match score; it raises it by exactly
three points plus six points for every profile skill whose rule matches the
extended blob but did not match the original blob.  In particular the change
is exactly three whenever the set of blob-matching skills is unchanged. -/
theorem C2_tag_bonus (r : Profile) (job : Posting) (tg : String)
    (h : tagMatches r tg = true) :
    scoreJob r job + 3 ≤ scoreJob r { job with tags := job.tags ++ [tg] } ∧
      scoreJob r { job with tags := job.tags ++ [tg] } + 6 * (matchingSkills r job).length
        = scoreJob r job + 3
            + 6 * (matchingSkills r { job with tags := job.tags ++ [tg] }).length := by
  have hlen := (matchingSkills_tag_sublist r job tg).length_le
  have htagf := tagFilter_snoc r job.tags tg h
  simp only [scoreJob]
  rw [htagf]
  simp only [List.length_append, List.length_singleton]
  constructor
  · omega
  · omega

/-- C2 witness data: a profile knowing react and a posting already matching
react, where the added react tag leaves the matching set unchanged. -/
def profC2w : Profile := ⟨false, ["react"], [], ""⟩

/-- Posting used in the C2 witness. -/
def jobC2w : Posting :=
  ⟨"react dev", "c", "l", "we use react", none, none, "k", "s", [], 0, [], false⟩

/-- Witness for the amended C2 theorem at a concrete input. -/
theorem C2_tag_bonus_witness :
    tagMatches profC2w "react" = true ∧
      (scoreJob profC2w jobC2w + 3
          ≤ scoreJob profC2w { jobC2w with tags := jobC2w.tags ++ ["react"] } ∧
        scoreJob profC2w { jobC2w with tags := jobC2w.tags ++ ["react"] }
            + 6 * (matchingSkills profC2w jobC2w).length
          = scoreJob profC2w jobC2w + 3
              + 6 * (matchingSkills profC2w
                  { jobC2w with tags := jobC2w.tags ++ ["react"] }).length) :=
  ⟨by decide, C2_tag_bonus profC2w jobC2w "react" (by decide)⟩

/-- C8: when the profile signals a parse error or the posting list is empty,
ranking returns the input list itself, untouched. -/
theorem C8_passthrough (jobs : List Posting) (r : Profile)
    (h : r.error = true ∨ jobs = []) : rank_jobs_by_resume jobs r = jobs := by
  unfold rank_jobs_by_resume
  rcases h with h | h
  · simp [h]
  · subst h; simp

/-- Profile carrying a parse error. -/
def profErr : Profile := ⟨true, ["python"], ["developer"], "mid"⟩

/-- Witness for C8 at a concrete error profile and a one-posting list. -/
theorem C8_passthrough_witness :
    (profErr.error = true ∨ [jobC2] = []) ∧
      rank_jobs_by_resume [jobC2] profErr = [jobC2] :=
  ⟨Or.inl rfl, C8_passthrough [jobC2] profErr (Or.inl rfl)⟩

theorem scoreLE_trans : ∀ (a b c : Posting), scoreLE a b → scoreLE b c → scoreLE a c := by
  intro a b c h1 h2
  simp only [scoreLE, decide_eq_true_eq] at h1 h2 ⊢
  omega

theorem scoreLE_total : ∀ (a b : Posting), scoreLE a b || scoreLE b a := by
  intro a b
  simp only [scoreLE, Bool.or_eq_true, decide_eq_true_eq]
  omega

/-- C7: for a non-error profile the ranked output is sorted by descending
match score, and postings with equal score keep the relative order they had
in the scored copy of the input (stable sort). -/
theorem C7_sorted_stable (jobs : List Posting) (r : Profile) (h : r.error = false) :
    List.Pairwise (fun a b => b.match_score ≤ a.match_score) (rank_jobs_by_resume jobs r) ∧
      ∀ v, (rank_jobs_by_resume jobs r).filter (fun j => j.match_score == v)
          = (scoredList jobs r).filter (fun j => j.match_score == v) := by
  by_cases hje : jobs.isEmpty = true
  · have hnil : jobs = [] := by rwa [List.isEmpty_iff] at hje
    subst hnil
    exact ⟨by simp [rank_jobs_by_resume], fun v => by simp [rank_jobs_by_resume, scoredList]⟩
  · have hje' : jobs.isEmpty = false := by rwa [Bool.not_eq_true] at hje
    have hrank : rank_jobs_by_resume jobs r = (scoredList jobs r).mergeSort scoreLE := by
      unfold rank_jobs_by_resume
      simp [hje', h]
    rw [hrank]
    constructor
    · have hs := List.sorted_mergeSort scoreLE_trans scoreLE_total (scoredList jobs r)
      exact hs.imp (fun hab => by
        simpa only [scoreLE, decide_eq_true_eq] using hab)
    · intro v
      have hcs : List.Sublist
          ((scoredList jobs r).filter (fun j => j.match_score == v)) (scoredList jobs r) :=
        List.filter_sublist (scoredList jobs r)
      have hcp : List.Pairwise (fun a b => scoreLE a b = true)
          ((scoredList jobs r).filter (fun j => j.match_score == v)) := by
        apply List.pairwise_of_forall_mem_list
        intro x hx y hy
        have hxv := (List.mem_filter.mp hx).2
        have hyv := (List.mem_filter.mp hy).2
        rw [beq_iff_eq] at hxv hyv
        simp [scoreLE, hxv, hyv]
      have hsub2 := List.sublist_mergeSort scoreLE_trans scoreLE_total hcp hcs
      have hperm : List.Perm
          (((scoredList jobs r).mergeSort scoreLE).filter (fun j => j.match_score == v))
          ((scoredList jobs r).filter (fun j => j.match_score == v)) :=
        (List.mergeSort_perm (scoredList jobs r) scoreLE).filter _
      have hself : ((scoredList jobs r).filter (fun j => j.match_score == v)).filter
          (fun j => j.match_score == v)
          = (scoredList jobs r).filter (fun j => j.match_score == v) :=
        List.filter_eq_self.mpr (fun a ha => (List.mem_filter.mp ha).2)
      have hsub3 : List.Sublist ((scoredList jobs r).filter (fun j => j.match_score == v))
          (((scoredList jobs r).mergeSort scoreLE).filter (fun j => j.match_score == v)) := by
        rw [← hself]
        exact hsub2.filter _
      exact (hsub3.eq_of_length hperm.length_eq.symm).symm

/-- Witness for C7 at a concrete non-error profile and posting list. -/
theorem C7_sorted_stable_witness :
    profC2.error = false ∧
      (List.Pairwise (fun a b => b.match_score ≤ a.match_score)
          (rank_jobs_by_resume [jobC2] profC2) ∧
        ∀ v, (rank_jobs_by_resume [jobC2] profC2).filter (fun j => j.match_score == v)
            = (scoredList [jobC2] profC2).filter (fun j => j.match_score == v)) :=
  ⟨rfl, C7_sorted_stable [jobC2] profC2 rfl⟩

theorem scoredList_length (jobs : List Posting) (r : Profile) :
    (scoredList jobs r).length = (jobs.filter (fun j => !j.err)).length := by
  unfold scoredList
  induction jobs with
  | nil => rfl
  | cons j js ih =>
    cases hj : j.err with
    | true => simp [List.filterMap_cons, hj, List.filter_cons, ih]
    | false => simp [List.filterMap_cons, hj, List.filter_cons, ih]

/-- C9: for a non-error profile, every ranked posting is the scored copy of
some non-error input posting (all fields other than the two score fields
unchanged), every non-error input posting contributes exactly its scored
copy, error-tagged inputs are excluded, and the output has exactly one entry
per non-error input.  The input list itself is never altered, which the
functional embedding renders automatic. -/
theorem C9_copies (jobs : List Posting) (r : Profile) (h : r.error = false) :
    (∀ o ∈ rank_jobs_by_resume jobs r, ∃ j ∈ jobs, j.err = false ∧ o = scoredCopy r j ∧
        o.title = j.title ∧ o.company = j.company ∧ o.location = j.location ∧
        o.description = j.description ∧ o.salary_min = j.salary_min ∧
        o.salary_max = j.salary_max ∧ o.link = j.link ∧ o.source = j.source ∧
        o.tags = j.tags ∧ o.err = false ∧
        o.match_score = scoreJob r j ∧ o.matching_skills = matchingSkills r j) ∧
      (∀ j ∈ jobs, j.err = false → scoredCopy r j ∈ rank_jobs_by_resume jobs r) ∧
      (rank_jobs_by_resume jobs r).length = (jobs.filter (fun j => !j.err)).length := by
  by_cases hje : jobs.isEmpty = true
  · have hnil : jobs = [] := by rwa [List.isEmpty_iff] at hje
    subst hnil
    refine ⟨?_, ?_, ?_⟩
    · intro o ho; simp [rank_jobs_by_resume] at ho
    · intro j hj; simp at hj
    · simp [rank_jobs_by_resume]
  · have hje' : jobs.isEmpty = false := by rwa [Bool.not_eq_true] at hje
    have hrank : rank_jobs_by_resume jobs r = (scoredList jobs r).mergeSort scoreLE := by
      unfold rank_jobs_by_resume
      simp [hje', h]
    refine ⟨?_, ?_, ?_⟩
    · intro o ho
      rw [hrank, List.mem_mergeSort] at ho
      unfold scoredList at ho
      rw [List.mem_filterMap] at ho
      obtain ⟨j, hj, hjo⟩ := ho
      split at hjo
      · exact absurd hjo (by simp)
      next herr =>
        have herr' : j.err = false := by rwa [Bool.not_eq_true] at herr
        have ho' : o = scoredCopy r j := by
          injection hjo with hh
          exact hh.symm
        subst ho'
        exact ⟨j, hj, herr', rfl, rfl, rfl, rfl, rfl, rfl, rfl, rfl, rfl, rfl,
          herr', rfl, rfl⟩
    · intro j hj hjerr
      rw [hrank, List.mem_mergeSort]
      unfold scoredList
      rw [List.mem_filterMap]
      exact ⟨j, hj, by simp [hjerr]⟩
    · rw [hrank, List.length_mergeSort]
      exact scoredList_length jobs r

/-- Witness for C9 at a concrete non-error profile and posting list. -/
theorem C9_copies_witness :
    profC2.error = false ∧
      ((∀ o ∈ rank_jobs_by_resume [jobC2] profC2, ∃ j ∈ [jobC2], j.err = false ∧
          o = scoredCopy profC2 j ∧
          o.title = j.title ∧ o.company = j.company ∧ o.location = j.location ∧
          o.description = j.description ∧ o.salary_min = j.salary_min ∧
          o.salary_max = j.salary_max ∧ o.link = j.link ∧ o.source = j.source ∧
          o.tags = j.tags ∧ o.err = false ∧
          o.match_score = scoreJob profC2 j ∧
          o.matching_skills = matchingSkills profC2 j) ∧
        (∀ j ∈ [jobC2], j.err = false →
          scoredCopy profC2 j ∈ rank_jobs_by_resume [jobC2] profC2) ∧
        (rank_jobs_by_resume [jobC2] profC2).length
          = ([jobC2].filter (fun j => !j.err)).length) :=
  ⟨rfl, C9_copies [jobC2] profC2 rfl⟩

/-! Claim C3: experience-years extraction. -/

/-- Maximum of a list of naturals, zero on the empty list. -/
def maxN : List Nat → Nat
  | [] => 0
  | a :: t => max a (maxN t)

/-- Minimum of a non-empty list of naturals, zero on the empty list. -/
def minN : List Nat → Nat
  | [] => 0
  | [a] => a
  | a :: b :: t => min a (minN (b :: t))

theorem maxN_mem : ∀ (l : List Nat), l ≠ [] → maxN l ∈ l := by
  intro l
  induction l with
  | nil => intro h; exact absurd rfl h
  | cons a t ih =>
    intro _
    cases t with
    | nil => simp [maxN]
    | cons b ts =>
      rcases Nat.le_total a (maxN (b :: ts)) with hle | hle
      · rw [show maxN (a :: b :: ts) = max a (maxN (b :: ts)) from rfl, max_eq_right hle]
        exact List.mem_cons_of_mem a (ih (by simp))
      · rw [show maxN (a :: b :: ts) = max a (maxN (b :: ts)) from rfl, max_eq_left hle]
        exact List.mem_cons_self a _

theorem minN_mem : ∀ (l : List Nat), l ≠ [] → minN l ∈ l := by
  intro l
  induction l with
  | nil => intro h; exact absurd rfl h
  | cons a t ih =>
    intro _
    cases t with
    | nil => simp [minN]
    | cons b ts =>
      rcases Nat.le_total a (minN (b :: ts)) with hle | hle
      · rw [show minN (a :: b :: ts) = min a (minN (b :: ts)) from rfl, min_eq_left hle]
        exact List.mem_cons_self a _
      · rw [show minN (a :: b :: ts) = min a (minN (b :: ts)) from rfl, min_eq_right hle]
        exact List.mem_cons_of_mem a (ih (by simp))

theorem minN_of_sorted (a : Nat) (t : List Nat)
    (hp : List.Pairwise (fun x y => x < y) (a :: t)) : minN (a :: t) = a := by
  cases t with
  | nil => rfl
  | cons b ts =>
    have hmem := minN_mem (b :: ts) (by simp)
    have hlt : a < minN (b :: ts) := (List.pairwise_cons.mp hp).1 _ hmem
    show min a (minN (b :: ts)) = a
    exact min_eq_left (Nat.le_of_lt hlt)

theorem maxN_of_sorted : ∀ (l : List Nat), List.Pairwise (fun x y => x < y) l →
    l ≠ [] → maxN l = l.getLastD 0 := by
  intro l
  induction l with
  | nil => intro _ h; exact absurd rfl h
  | cons a t ih =>
    intro hp _
    cases t with
    | nil => simp [maxN]
    | cons b ts =>
      have hmem := maxN_mem (b :: ts) (by simp)
      have hlt : a < maxN (b :: ts) := (List.pairwise_cons.mp hp).1 _ hmem
      have hrec := ih (List.pairwise_cons.mp hp).2 (by simp)
      show max a (maxN (b :: ts)) = (a :: b :: ts).getLastD 0
      rw [max_eq_right (Nat.le_of_lt hlt), hrec]
      simp [List.getLastD_cons]

theorem mem_insSorted (n : Nat) : ∀ (l : List Nat) (x : Nat),
    x ∈ insSorted n l ↔ x = n ∨ x ∈ l := by
  intro l
  induction l with
  | nil => intro x; simp [insSorted]
  | cons m t ih =>
    intro x
    by_cases h1 : n < m
    · rw [show insSorted n (m :: t) = n :: m :: t from by simp [insSorted, h1]]
      simp only [List.mem_cons]
    · by_cases h2 : (n == m) = true
      · rw [beq_iff_eq] at h2
        subst h2
        rw [show insSorted n (n :: t) = n :: t from by simp [insSorted]]
        simp only [List.mem_cons]
        tauto
      · rw [show insSorted n (m :: t) = m :: insSorted n t from by simp [insSorted, h1, h2]]
        simp only [List.mem_cons, ih]
        tauto

theorem insSorted_pairwise (n : Nat) : ∀ (l : List Nat),
    List.Pairwise (fun x y => x < y) l →
    List.Pairwise (fun x y => x < y) (insSorted n l) := by
  intro l
  induction l with
  | nil => intro _; simp [insSorted]
  | cons m t ih =>
    intro hp
    obtain ⟨hm, ht⟩ := List.pairwise_cons.mp hp
    by_cases h1 : n < m
    · rw [show insSorted n (m :: t) = n :: m :: t from by simp [insSorted, h1]]
      apply List.pairwise_cons.mpr
      refine ⟨?_, hp⟩
      intro x hx
      rcases List.mem_cons.mp hx with rfl | hx
      · exact h1
      · exact Nat.lt_trans h1 (hm x hx)
    · by_cases h2 : (n == m) = true
      · rw [show insSorted n (m :: t) = m :: t from by simp [insSorted, h1, h2]]
        exact hp
      · rw [show insSorted n (m :: t) = m :: insSorted n t from by simp [insSorted, h1, h2]]
        apply List.pairwise_cons.mpr
        refine ⟨?_, ih ht⟩
        intro x hx
        rcases (mem_insSorted n t x).mp hx with rfl | hx
        · rw [beq_iff_eq] at h2
          omega
        · exact hm x hx

theorem sortedDistinct_pairwise (l : List Nat) :
    List.Pairwise (fun x y => x < y) (sortedDistinct l) := by
  unfold sortedDistinct
  induction l with
  | nil => simp
  | cons a t ih => exact insSorted_pairwise a _ ih

/-- Reference formulation of the fallback following the spec's words: the
span is the difference between the maximum and the minimum of the distinct
year set; the explicit phrasings are tried in the same fixed priority
order. -/
def extract_experience_years_spec (text : List Char) : Nat × String :=
  let tl := lowerL text
  match searchCap expP1 none tl with
  | some ds => (digitsToNat ds, "explicit_phrase_1")
  | none =>
    match searchCap expP2 none tl with
    | some ds => (digitsToNat ds, "explicit_phrase_2")
    | none =>
      match searchCap expP3 none tl with
      | some ds => (digitsToNat ds, "explicit_phrase_3")
      | none =>
        let uy := sortedDistinct (yearScan none text)
        if 2 ≤ uy.length then (maxN uy - minN uy, "year_span_fallback")
        else (0, "not_detected")

/-- C3: experience extraction agrees with the reference algorithm of the
spec (first matching explicit phrasing wins; otherwise the span between the
maximum and minimum of at least two distinct years; otherwise zero with
method not-detected), and the two dictated examples: the text 5+ years
experience yields 5 by explicit_phrase_2, and a text whose years are 2015,
2015 and 2020 with no explicit phrase yields 5 by year_span_fallback. -/
theorem C3_experience_reference :
    (∀ text : List Char,
        extract_experience_years text = extract_experience_years_spec text) ∧
      extract_experience_years "5+ years experience".data = (5, "explicit_phrase_2") ∧
      extract_experience_years "from 2015 and 2015 until 2020".data
        = (5, "year_span_fallback") := by
  refine ⟨?_, by decide, by decide⟩
  intro text
  simp only [extract_experience_years, extract_experience_years_spec]
  cases searchCap expP1 none (lowerL text) with
  | some ds => rfl
  | none =>
    cases searchCap expP2 none (lowerL text) with
    | some ds => rfl
    | none =>
      cases searchCap expP3 none (lowerL text) with
      | some ds => rfl
      | none =>
        by_cases hlen : 2 ≤ (sortedDistinct (yearScan none text)).length
        · simp only [hlen, if_true]
          rcases huy : sortedDistinct (yearScan none text) with _ | ⟨a, t⟩
          · rw [huy] at hlen; simp at hlen
          · have hp : List.Pairwise (fun x y => x < y) (a :: t) :=
              huy ▸ sortedDistinct_pairwise (yearScan none text)
            rw [maxN_of_sorted (a :: t) hp (by simp), minN_of_sorted a t hp]
            simp
        · simp [hlen]

/-! Claim C6: the c++ rule and whitespace-delimited c++ tokens. -/

/-- C6: on the text skills: c++ and python, where c++ occurs as a standalone
whitespace-delimited token, the skill dictionary reports only python: the
c++ rule cannot fire because its trailing word boundary after the plus sign
requires a word character to follow, and cpp is absent.  The code fails the
claim at this input. -/
theorem C6_cpp_failing_input :
    skill_match "skills: c++ and python".data = ["python"] ∧
      searchAux cppRE none (lowerL "skills: c++ and python".data) = false := by
  refine ⟨by decide, by decide⟩

/-! Claim C10: the swift token also fires the ios rule. -/

theorem search_of_mem_skill_match (c : String) (rx : RE) (t : List Char)
    (huniq : ∀ cp ∈ SKILLS, cp.1 = c → cp.2 = rx) (h : c ∈ skill_match t) :
    searchAux rx none (lowerL t) = true := by
  unfold skill_match at h
  rw [List.mem_filterMap] at h
  obtain ⟨cp, hcp, heq⟩ := h
  split at heq
  next hb =>
    have h1 : cp.1 = c := by injection heq
    rw [← huniq cp hcp h1]
    exact hb
  next => exact absurd heq (by simp)

theorem mem_skill_match_intro (c : String) (rx : RE) (t : List Char)
    (hmem : (c, rx) ∈ SKILLS) (hs : searchAux rx none (lowerL t) = true) :
    c ∈ skill_match t := by
  unfold skill_match
  rw [List.mem_filterMap]
  exact ⟨(c, rx), hmem, by simp [hs]⟩

/-- C10: whenever the swift skill is extracted from a text, the ios skill is
extracted as well, because the ios rule's alternation contains the very same
whole-word swift pattern. -/
theorem C10_swift_implies_ios (t : List Char) (h : "swift" ∈ skill_match t) :
    "ios" ∈ skill_match t := by
  have hs : searchAux swiftRE none (lowerL t) = true :=
    search_of_mem_skill_match "swift" swiftRE t (by decide) h
  have hios : searchAux iosRE none (lowerL t) = true :=
    searchAux_alt_right _ _ _ _ (searchAux_alt_left _ _ _ _ hs)
  exact mem_skill_match_intro "ios" iosRE t (by decide) hios

/-- Witness for C10 on a text that mentions swift and never mentions ios. -/
theorem C10_swift_implies_ios_witness :
    ("swift" ∈ skill_match "i write swift code".data) ∧
      ("ios" ∈ skill_match "i write swift code".data) :=
  ⟨by decide, C10_swift_implies_ios _ (by decide)⟩

/-! Claim C4: javascript and the java rule. -/

/-- The text contains the given characters as a whole word: an occurrence
preceded and followed by a non-word character or a text edge. -/
def containsWord (tok s : List Char) : Prop :=
  ∃ u v, s = u ++ tok ++ v ∧ wordCharO (lastC none u) = false ∧ headNW v = true

theorem reMatches_seq_eq (a b : RE) (st : MState) :
    reMatches (RE.seq a b) st = (reMatches a st).flatMap (fun st2 => reMatches b st2) := rfl

theorem reMatches_wb_eq (st : MState) :
    reMatches RE.wb st = if atBoundary st.prev st.rest then [st] else [] := rfl

theorem litsL_determ : ∀ (l : List Char) (p : Option Char) (X : List Char)
    (cap : Option (List Char)),
    reMatches (litsL l) ⟨p, l ++ X, cap⟩ = [⟨lastC p l, X, cap⟩] := by
  intro l
  induction l with
  | nil => intro p X cap; simp [litsL, reMatches, lastC]
  | cons c t ih =>
    intro p X cap
    rw [show litsL (c :: t) = RE.seq (RE.lit c) (litsL t) from by simp [litsL]]
    rw [reMatches_seq_eq]
    rw [show reMatches (RE.lit c) ⟨p, (c :: t) ++ X, cap⟩ = [⟨some c, t ++ X, cap⟩] from by
      simp [reMatches]]
    simp only [List.flatMap_cons, List.flatMap_nil, List.append_nil]
    exact ih (some c) X cap

theorem litsL_no_match : ∀ (l : List Char) (st : MState), leadsWith l st.rest = false →
    reMatches (litsL l) st = [] := by
  intro l
  induction l with
  | nil => intro st h; simp [leadsWith] at h
  | cons c t ih =>
    intro st h
    obtain ⟨p, rest, cap⟩ := st
    rw [show litsL (c :: t) = RE.seq (RE.lit c) (litsL t) from by simp [litsL]]
    rw [reMatches_seq_eq]
    cases rest with
    | nil =>
      rw [show reMatches (RE.lit c) ⟨p, [], cap⟩ = [] from by simp [reMatches]]
      rfl
    | cons d r =>
      by_cases hcd : (d == c) = true
      · have hcd' : (c == d) = true := by
          rw [beq_iff_eq] at hcd ⊢
          exact hcd.symm
        have hlt : leadsWith t r = false := by
          simp only at h
          simp only [leadsWith, hcd', Bool.true_and] at h
          exact h
        rw [show reMatches (RE.lit c) ⟨p, d :: r, cap⟩ = [⟨some d, r, cap⟩] from by
          simp [reMatches, hcd]]
        simp only [List.flatMap_cons, List.flatMap_nil, List.append_nil]
        exact ih ⟨some d, r, cap⟩ hlt
      · rw [show reMatches (RE.lit c) ⟨p, d :: r, cap⟩ = [] from by simp [reMatches, hcd]]
        rfl

theorem java_matches_empty (p : Option Char) (rest : List Char) (cap : Option (List Char))
    (h : leadsWith "java".data rest = false ∨ leadsWith "javascript".data rest = true) :
    reMatches javaRE ⟨p, rest, cap⟩ = [] := by
  unfold javaRE lits
  rw [reMatches_seq_eq, reMatches_wb_eq]
  by_cases hb : atBoundary p rest = true
  · rw [if_pos hb]
    simp only [List.flatMap_cons, List.flatMap_nil, List.append_nil]
    rw [reMatches_seq_eq]
    rcases h with h | h
    · rw [litsL_no_match "java".data ⟨p, rest, cap⟩ h]
      rfl
    · obtain ⟨s2, rfl⟩ := (leadsWith_iff _ _).mp h
      have hsplit : ("javascript".data : List Char) ++ s2
          = "java".data ++ ("script".data ++ s2) := by
        rw [show ("javascript".data : List Char) = "java".data ++ "script".data from by decide]
        rw [List.append_assoc]
      rw [hsplit, litsL_determ "java".data p ("script".data ++ s2) cap]
      simp only [List.flatMap_cons, List.flatMap_nil, List.append_nil]
      have hlw : leadsWith ('s' :: 'c' :: 'r' :: 'i' :: 'p' :: 't' :: [])
          ("script".data ++ s2) = true :=
        (leadsWith_iff _ _).mpr ⟨s2, rfl⟩
      show (if atBoundary _ ("script".data ++ s2) && !(leadsWith _ ("script".data ++ s2))
          then _ else []) = []
      rw [hlw]
      simp
  · rw [if_neg hb]
    rfl

/-- Does every occurrence of "java" in the text continue as "javascript"? -/
def javaOnlyJs : List Char → Bool
  | [] => true
  | c :: t =>
    (!(leadsWith "java".data (c :: t)) || leadsWith "javascript".data (c :: t)) && javaOnlyJs t

theorem javaOnlyJs_sound : ∀ (s : List Char) (p : Option Char), javaOnlyJs s = true →
    searchAux javaRE p s = false := by
  intro s
  induction s with
  | nil =>
    intro p _
    have hm := java_matches_empty p [] none (Or.inl (by decide))
    simp [searchAux, hm]
  | cons c t ih =>
    intro p h
    simp only [javaOnlyJs, Bool.and_eq_true, Bool.or_eq_true] at h
    obtain ⟨h1, h2⟩ := h
    have hm : reMatches javaRE ⟨p, c :: t, none⟩ = [] := by
      apply java_matches_empty
      rcases h1 with h1 | h1
      · left
        rwa [Bool.not_eq_true'] at h1
      · right
        exact h1
    simp [searchAux, hm, ih (some c) h2]

theorem skills_java_unique : ∀ cp ∈ SKILLS, cp.1 = "java" → cp.2 = javaRE := by decide

theorem java_not_of_only (t : List Char) (h : javaOnlyJs (lowerL t) = true) :
    "java" ∉ skill_match t := by
  intro hmem
  have hs := search_of_mem_skill_match "java" javaRE t skills_java_unique hmem
  rw [javaOnlyJs_sound (lowerL t) none h] at hs
  cases hs

theorem javascript_of_token (t : List Char)
    (h : containsWord "javascript".data (lowerL t)) :
    "javascript" ∈ skill_match t := by
  obtain ⟨u, v, heq, hu, hv⟩ := h
  apply mem_skill_match_intro "javascript" javascriptRE t (by decide)
  unfold javascriptRE word
  apply searchAux_alt_left
  rw [heq, List.append_assoc]
  exact searchAux_word 'j' "avascript".data u v none hu (by decide) (by decide) hv

/-- C4 counterexample: the text java javascript contains the token
javascript, yet the skill java is reported, because of the separate
standalone occurrence of java; the claim as stated is false. -/
theorem C4_counterexample :
    containsWord "javascript".data (lowerL "java javascript".data) ∧
      "java" ∈ skill_match "java javascript".data :=
  ⟨⟨"java ".data, [], by decide, by decide, by decide⟩, by decide⟩

/-- C4 (amended): for every text containing the token javascript, the skill
javascript is reported; and the skill java is not reported provided every
occurrence of java in the text is immediately followed by script, so the
token javascript itself never fires the java rule. -/
theorem C4_javascript_java (t : List Char) :
    (containsWord "javascript".data (lowerL t) → "javascript" ∈ skill_match t) ∧
      (javaOnlyJs (lowerL t) = true → "java" ∉ skill_match t) :=
  ⟨javascript_of_token t, java_not_of_only t⟩

/-- Witness for the amended C4 theorem on a concrete text. -/
theorem C4_javascript_java_witness :
    (containsWord "javascript".data (lowerL "i know javascript".data) ∧
        javaOnlyJs (lowerL "i know javascript".data) = true) ∧
      ("javascript" ∈ skill_match "i know javascript".data ∧
        "java" ∉ skill_match "i know javascript".data) :=
  ⟨⟨⟨"i know ".data, [], by decide, by decide, by decide⟩, by decide⟩,
    (C4_javascript_java "i know javascript".data).1
      ⟨"i know ".data, [], by decide, by decide, by decide⟩,
    (C4_javascript_java "i know javascript".data).2 (by decide)⟩

/-! Claim C5: education-line extraction. -/

/-- Number of non-whitespace characters of a line. -/
def nonWsCount (l : List Char) : Nat := (l.filter (fun c => !spaceChar c)).length

/-- The education-line criterion exactly as the claim words it: a keyword
occurs case-insensitively and the line has more than five non-whitespace
characters after trimming. -/
def eduLineOkClaim (line : List Char) : Bool :=
  EDUCATION_KEYWORDS.any (fun k => hasSub k.data (lowerL line)) &&
    decide (5 < nonWsCount (stripWs line))

/-- Education extraction as the claim, read literally, would have it: the
first five qualifying raw lines of the text. -/
def extract_education_claim (text : List Char) : List (List Char) :=
  ((splitNl text).filter eduLineOkClaim).take 5

/-- C5 counterexample: on the one-line text consisting of mba, four spaces
and x, the code keeps the line because its trimmed length 8 exceeds 5, yet
the line has only four non-whitespace characters, so the claimed criterion
keeps nothing; the claim as stated is false. -/
theorem C5_counterexample :
    extract_education "mba    x".data ≠ extract_education_claim "mba    x".data ∧
      extract_education "mba    x".data = ["mba    x".data] ∧
      extract_education_claim "mba    x".data = [] :=
  ⟨by decide, by decide, by decide⟩

/-- Qualification of a line in the amended claim's words: some configured
keyword occurs case-insensitively and the trimmed line is longer than five
characters, interior whitespace included. -/
def eduQual (line : List Char) : Prop :=
  (∃ k ∈ EDUCATION_KEYWORDS, hasSub k.data (lowerL line) = true) ∧
    5 < (stripWs line).length

instance eduQualDec (line : List Char) : Decidable (eduQual line) :=
  (inferInstance : Decidable ((∃ k ∈ EDUCATION_KEYWORDS,
    hasSub k.data (lowerL line) = true) ∧ 5 < (stripWs line).length))

/-- Education extraction as the amended claim words it: the trimmed forms of
the first at-most-five qualifying lines in document order. -/
def extract_education_spec (text : List Char) : List (List Char) :=
  (((splitNl text).filter (fun l => decide (eduQual l))).map stripWs).take 5

theorem filterMap_guard_eq {α β : Type} (p : α → Bool) (f : α → β) :
    ∀ (l : List α), l.filterMap (fun x => if p x then some (f x) else none)
      = (l.filter p).map f := by
  intro l
  induction l with
  | nil => rfl
  | cons a t ih =>
    cases hp : p a with
    | true => simp [List.filterMap_cons, List.filter_cons, hp, ih]
    | false => simp [List.filterMap_cons, List.filter_cons, hp, ih]

theorem eduLineOk_iff (l : List Char) : eduLineOk l = decide (eduQual l) := by
  by_cases h : eduQual l
  · rw [decide_eq_true h]
    obtain ⟨⟨k, hk, hks⟩, hlen⟩ := h
    unfold eduLineOk
    rw [Bool.and_eq_true]
    exact ⟨List.any_eq_true.mpr ⟨k, hk, hks⟩, decide_eq_true hlen⟩
  · rw [decide_eq_false h]
    rcases hres : eduLineOk l with _ | _
    · rfl
    · exfalso
      apply h
      unfold eduLineOk at hres
      rw [Bool.and_eq_true] at hres
      obtain ⟨h1, h2⟩ := hres
      exact ⟨List.any_eq_true.mp h1, of_decide_eq_true h2⟩

/-- C5 (amended): education-line detection returns exactly the trimmed forms
of the first at-most-five lines of the text, in document order, that contain
some configured education keyword case-insensitively and whose trimmed form
is longer than five characters; no other line contributes. -/
theorem C5_education_amended :
    ∀ text : List Char, extract_education text = extract_education_spec text := by
  intro text
  unfold extract_education extract_education_spec
  rw [filterMap_guard_eq eduLineOk stripWs]
  rw [List.filter_congr (fun x _ => eduLineOk_iff x)]

/-! Claim C1: the end-to-end scoring example. -/

/-- Profile of the end-to-end example: skills python and react, title
software engineer, seniority mid, no parse error. -/
def profC1 : Profile := ⟨false, ["python", "react"], ["software engineer"], "mid"⟩

/-- Posting family of the end-to-end example: title Senior Software
Engineer, tag react, any description and any remaining fields. -/
def jobC1 (desc co lo li so : String) (smin smax : Option Int) (ms : Nat)
    (mk : List String) (e : Bool) : Posting :=
  ⟨"Senior Software Engineer", co, lo, desc, smin, smax, li, so, ["react"], ms, mk, e⟩

theorem lowerL_append (a b : List Char) : lowerL (a ++ b) = lowerL a ++ lowerL b :=
  List.map_append Char.toLower a b

theorem blobC1 (desc co lo li so : String) (smin smax : Option Int) (ms : Nat)
    (mk : List String) (e : Bool) :
    lowerL (blobOf (jobC1 desc co lo li so smin smax ms mk e))
      = "senior software engineer".data
          ++ ' ' :: (lowerL desc.data ++ ' ' :: "react".data) := by
  have h1 : lowerL "Senior Software Engineer".data = "senior software engineer".data := by
    decide
  have h2 : lowerL "react".data = "react".data := by decide
  show lowerL ("Senior Software Engineer".data
      ++ ' ' :: (desc.data ++ ' ' :: joinSp (["react"].map String.data))) = _
  rw [show joinSp (["react"].map String.data) = "react".data from rfl]
  rw [lowerL_append]
  rw [show lowerL (' ' :: (desc.data ++ ' ' :: "react".data))
      = ' ' :: lowerL (desc.data ++ ' ' :: "react".data) from by simp [lowerL, toLower_sp]]
  rw [lowerL_append]
  rw [show lowerL (' ' :: "react".data) = ' ' :: lowerL "react".data from by
    simp [lowerL, toLower_sp]]
  rw [h1, h2]

/-- C1: for the profile with skills python and react, title software
engineer and seniority mid, any posting titled Senior Software Engineer
whose description contains the whole-word token python and whose tag list
is exactly react scores 27 points (six for python, six for react, twelve
for the title, three for the tag, and no seniority bonus since mid does not
occur in the title), with matching skills python then react in dictionary
order. -/
theorem C1_end_to_end (desc co lo li so : String) (smin smax : Option Int) (ms : Nat)
    (mk : List String) (e : Bool)
    (hd : containsWord "python".data (lowerL desc.data)) :
    scoreJob profC1 (jobC1 desc co lo li so smin smax ms mk e) = 27 ∧
      matchingSkills profC1 (jobC1 desc co lo li so smin smax ms mk e)
        = ["python", "react"] := by
  obtain ⟨u, v, heq, hu, hv⟩ := hd
  have hpy : searchAux pythonRE none
      (lowerL (blobOf (jobC1 desc co lo li so smin smax ms mk e))) = true := by
    rw [blobC1, heq]
    have hform : "senior software engineer".data
        ++ ' ' :: ((u ++ "python".data ++ v) ++ ' ' :: "react".data)
        = ("senior software engineer".data ++ ' ' :: u)
            ++ ("python".data ++ (v ++ ' ' :: "react".data)) := by
      simp [List.append_assoc, List.cons_append]
    rw [hform]
    show searchAux (wordL ('p' :: "ython".data)) none _ = true
    apply searchAux_word 'p' "ython".data _ _ none ?_ (by decide) (by decide) ?_
    · rw [lastC_append]
      cases u with
      | nil => decide
      | cons x xs =>
        show wordCharO (lastC (some ' ') (x :: xs)) = false
        rw [lastC_irrel (some ' ') none (x :: xs) (by simp)]
        exact hu
    · cases v with
      | nil => decide
      | cons y ys =>
        show headNW (y :: (ys ++ ' ' :: "react".data)) = true
        exact hv
  have hre : searchAux reactRE none
      (lowerL (blobOf (jobC1 desc co lo li so smin smax ms mk e))) = true := by
    rw [blobC1]
    have hform : "senior software engineer".data
        ++ ' ' :: (lowerL desc.data ++ ' ' :: "react".data)
        = ("senior software engineer".data ++ ' ' :: (lowerL desc.data ++ [' ']))
            ++ ("react".data ++ []) := by
      simp [List.append_assoc, List.cons_append]
    rw [hform]
    unfold reactRE
    apply searchAux_alt_right
    show searchAux (wordL ('r' :: "eact".data)) none _ = true
    apply searchAux_word 'r' "eact".data _ _ none ?_ (by decide) (by decide) (by decide)
    rw [lastC_append]
    show wordCharO (lastC (some ' ') (lowerL desc.data ++ [' '])) = false
    rw [lastC_concat]
    decide
  have hms : matchingSkills profC1 (jobC1 desc co lo li so smin smax ms mk e)
      = ["python", "react"] := by
    unfold matchingSkills matchingOf
    set_option maxRecDepth 4096 in
    simp only [SKILLS, profC1, List.filterMap_cons, List.filterMap_nil]
    set_option maxRecDepth 4096 in
    simp [hpy, hre]
  refine ⟨?_, hms⟩
  have h1 : titleHit profC1 (lowerL "Senior Software Engineer".data) = true := by decide
  have h2 : seniorityHit profC1 (lowerL "Senior Software Engineer".data) = false := by decide
  have h3 : (["react"] : List String).filter (fun tg => tagMatches profC1 tg)
      = ["react"] := by decide
  rw [show scoreJob profC1 (jobC1 desc co lo li so smin smax ms mk e)
      = 6 * (matchingSkills profC1 (jobC1 desc co lo li so smin smax ms mk e)).length
        + (if titleHit profC1 (lowerL "Senior Software Engineer".data) then 12 else 0)
        + (if seniorityHit profC1 (lowerL "Senior Software Engineer".data) then 4 else 0)
        + 3 * ((["react"] : List String).filter
            (fun tg => tagMatches profC1 tg)).length from rfl]
  rw [hms, h1, h2, h3]
  rfl

/-- Witness for C1 at a concrete description containing the token python. -/
theorem C1_end_to_end_witness :
    containsWord "python".data (lowerL "We use Python daily".data) ∧
      (scoreJob profC1 (jobC1 "We use Python daily" "Acme" "NY" "x" "Remotive"
          none none 0 [] false) = 27 ∧
        matchingSkills profC1 (jobC1 "We use Python daily" "Acme" "NY" "x" "Remotive"
            none none 0 [] false) = ["python", "react"]) :=
  ⟨⟨"we use ".data, " daily".data, by decide, by decide, by decide⟩,
    C1_end_to_end "We use Python daily" "Acme" "NY" "x" "Remotive" none none 0 [] false
      ⟨"we use ".data, " daily".data, by decide, by decide, by decide⟩⟩

end JobAgent
